import Mathlib

/-!
Verification development for the RL_processing streaming name-merging
pipeline.  The Python source is shallowly embedded: each definition below
mirrors one function (or one tightly scoped aspect) of the repository code,
and the theorems at the end of the file settle the specification claims
against these definitions.

Modelled components:
- `merge_full_names`, `merge_unpaired`: the two-pointer merge generators of
  `services/name_processing.py` (lines 216-309), viewed at the record level.
- `splitChunks`, `sortChunk`, `minHead`/`popHead`/`kMergeFuel`,
  `external_sort_ndjson`: the external merge sort of
  `services/name_processing.py` (lines 133-199), viewed on the parsed record
  sequence of the NDJSON file (empty lines are skipped on read before this
  level, per the code at line 163).
- `convertStream` and the JSON rendering helpers: the byte stream yielded by
  `convert_to_ndjson_stream` (lines 61-131), viewed as the list of yielded
  chunks, each chunk a string (the code encodes each chunk as UTF-8).
- `jsonEvents`, `feedStep`, `validatorAccepts`: the `StreamingValidator` of
  `validators/input_validator.py`, viewed at the level of the ijson event
  stream of a complete JSON document.
- `convertFsTrace`: the filesystem create/remove operations performed by the
  pipeline on its success path.
-/

namespace RLProc

/-- A name record, one NDJSON line `[name, id]` (spec section 3 NameRecord;
in the Python code a two-element list `[item[0], item[1]]`). -/
structure NameRecord where
  name : String
  id : Int
deriving DecidableEq, Repr

/-- A paired output record, as built by `merge_full_names` line 244:
`{"first": ..., "last": ..., "id": ...}`. -/
structure FullName where
  first : String
  last : String
  id : Int
deriving DecidableEq, Repr

/-- An unpaired output record, as built by `merge_unpaired` lines 289 and
295: either `{"first": name, "id": id}` or `{"last": name, "id": id}`. -/
inductive Unpaired where
  | first (name : String) (id : Int)
  | last (name : String) (id : Int)
deriving DecidableEq, Repr

/-- The id carried by an unpaired record. -/
def Unpaired.uid : Unpaired → Int
  | .first _ i => i
  | .last _ i => i

/-- Whether an unpaired record came from the first-names side. -/
def Unpaired.isFirstSide : Unpaired → Bool
  | .first _ _ => true
  | .last _ _ => false

/-- `NameProcessingService.merge_full_names` (name_processing.py 216-259),
record level.  The Python loop runs while both cursors hold a record:
on equal ids it emits a paired record and advances both; on `first id <
last id` it advances the first cursor; otherwise it advances the last
cursor.  Byte formatting and batching are modelled separately
(`pairedLines`, `chunkJoin`). -/
def merge_full_names : List NameRecord → List NameRecord → List FullName
  | f :: fs, l :: ls =>
    if f.id = l.id then
      ⟨f.name, l.name, f.id⟩ :: merge_full_names fs ls
    else if f.id < l.id then
      merge_full_names fs (l :: ls)
    else
      merge_full_names (f :: fs) ls
  | _, _ => []
termination_by a b => a.length + b.length
decreasing_by all_goals simp_arith

/-- `NameProcessingService.merge_unpaired` (name_processing.py 261-309),
record level.  The Python loop runs while either cursor holds a record:
if the first cursor is ahead (last empty, or strictly smaller id) it emits
an unpaired first record; symmetrically for the last cursor; when both
hold equal ids it advances both without emitting. -/
def merge_unpaired : List NameRecord → List NameRecord → List Unpaired
  | [], [] => []
  | f :: fs, [] => .first f.name f.id :: merge_unpaired fs []
  | [], l :: ls => .last l.name l.id :: merge_unpaired [] ls
  | f :: fs, l :: ls =>
    if f.id < l.id then
      .first f.name f.id :: merge_unpaired fs (l :: ls)
    else if l.id < f.id then
      .last l.name l.id :: merge_unpaired (f :: fs) ls
    else
      merge_unpaired fs ls
termination_by a b => a.length + b.length
decreasing_by all_goals simp_arith

/-- The ids of the unpaired records that lie on the first-names side. -/
def unpairedFirstIds (us : List Unpaired) : List Int :=
  us.filterMap (fun u => match u with | .first _ i => some i | .last _ _ => none)

/-- The ids of the unpaired records that lie on the last-names side. -/
def unpairedLastIds (us : List Unpaired) : List Int :=
  us.filterMap (fun u => match u with | .first _ _ => none | .last _ i => some i)

/-- Non-decreasing-by-id order on records (spec: sorted intermediate). -/
def idLe (a b : NameRecord) : Prop := a.id ≤ b.id

instance : DecidableRel idLe :=
  fun a b => inferInstanceAs (Decidable (a.id ≤ b.id))

/-- `sync_gen_to_async_gen` (utils/generator_utils.py 18-42), viewed on
the item sequence of the underlying synchronous generator (`none` is a
yielded Python `None`): the loop takes `next(sync_gen, None)` and breaks
on `None`, so exhaustion and a yielded `None` are indistinguishable and
iteration stops at the first `None` item. -/
def sync_gen_to_async_gen {α : Type} : List (Option α) → List α
  | [] => []
  | none :: _ => []
  | some a :: rest => a :: sync_gen_to_async_gen rest

/-- Buffer-and-flush grouping shared by all the batching loops of the
source (`convert_to_ndjson_stream` lines 91-113, `external_sort_ndjson`
lines 159-181, `merge_full_names` lines 240-259, `merge_unpaired` lines
285-309): items are appended to a buffer which is flushed whenever its
length reaches `batchSize`, the residual buffer flushed at the end.
`acc` is the current buffer. -/
def splitChunks {α : Type} (batchSize : Nat) (acc : List α) : List α → List (List α)
  | [] => if acc.isEmpty then [] else [acc]
  | x :: rest =>
    if batchSize ≤ (acc ++ [x]).length then
      (acc ++ [x]) :: splitChunks batchSize [] rest
    else
      splitChunks batchSize (acc ++ [x]) rest

/-- `chunk.sort(key=lambda x: x[1])` (name_processing.py 168 and 176):
Python list.sort is a stable sort by the key, which coincides with a
stable merge sort under the id comparison. -/
def sortChunk (chunk : List NameRecord) : List NameRecord :=
  chunk.mergeSort (fun a b => a.id ≤ b.id)

/-- Selection step of `heapq.merge(..., key=lambda x: x[1])`
(name_processing.py 189-192): among the nonempty readers, the head with
the smallest id wins, ties broken by the smallest reader index (heapq
orders its entries by `(key, order)`).  Returns the winning record and
the index of its reader. -/
def minHead : List (List NameRecord) → Option (NameRecord × Nat)
  | [] => none
  | [] :: rest => (minHead rest).map (fun p => (p.1, p.2 + 1))
  | (x :: _) :: rest =>
    match minHead rest with
    | none => some (x, 0)
    | some (r, i) => if r.id < x.id then some (r, i + 1) else some (x, 0)

/-- Advance reader `i`: drop the head of the i-th list. -/
def popHead : Nat → List (List NameRecord) → List (List NameRecord)
  | _, [] => []
  | 0, c :: rest => c.tail :: rest
  | i + 1, c :: rest => c :: popHead i rest

/-- Total number of records still unread across all readers. -/
def totalLen (ls : List (List NameRecord)) : Nat := (ls.map List.length).sum

/-- Fuelled k-way merge loop: repeatedly pop the minimal head (see
`minHead`) and append it to the output, until all readers are exhausted.
`totalLen ls` steps always suffice (each step consumes one record). -/
def kMergeFuel : Nat → List (List NameRecord) → List NameRecord
  | 0, _ => []
  | fuel + 1, ls =>
    match minHead ls with
    | none => []
    | some (r, i) => r :: kMergeFuel fuel (popHead i ls)

/-- The k-way merge of `heapq.merge` over the chunk readers. -/
def kMerge (ls : List (List NameRecord)) : List NameRecord :=
  kMergeFuel (totalLen ls) ls

/-- `NameProcessingService.external_sort_ndjson` (name_processing.py
133-199) on the parsed record sequence of the NDJSON file: phase 1 groups
the records into batches of `batchSize` (the residue forming the final
chunk) and sorts each batch by id; phase 2 k-way merges the sorted
chunks.  File IO, JSON round-tripping of each line, and the skipping of
empty lines on read happen around this level in the code. -/
def external_sort_ndjson (batchSize : Nat) (records : List NameRecord) : List NameRecord :=
  kMerge ((splitChunks batchSize [] records).map sortChunk)

/-! ### JSON serialisation, modelling Python `json.dumps` (ensure_ascii) -/

/-- Lowercase hex digit, as used by the `\uXXXX` escapes of `json.dumps`. -/
def hexDigit (n : Nat) : Char :=
  if n < 10 then Char.ofNat (48 + n) else Char.ofNat (87 + n)

/-- Four lowercase hex digits. -/
def hex4 (n : Nat) : String :=
  String.mk [hexDigit (n / 4096 % 16), hexDigit (n / 256 % 16),
    hexDigit (n / 16 % 16), hexDigit (n % 16)]

/-- Escape of a single character under `json.dumps` defaults
(ensure_ascii=True): printable ASCII other than quote and backslash is
literal; the usual two-character escapes apply; everything else becomes
`\uXXXX`, with a surrogate pair above the BMP. -/
def escapeChar (c : Char) : String :=
  if c = '"' then "\\\""
  else if c = '\\' then "\\\\"
  else if 32 ≤ c.toNat ∧ c.toNat ≤ 126 then String.mk [c]
  else if c = Char.ofNat 8 then "\\b"
  else if c = Char.ofNat 9 then "\\t"
  else if c = Char.ofNat 10 then "\\n"
  else if c = Char.ofNat 12 then "\\f"
  else if c = Char.ofNat 13 then "\\r"
  else if c.toNat < 65536 then "\\u" ++ hex4 c.toNat
  else
    "\\u" ++ hex4 (55296 + (c.toNat - 65536) / 1024)
      ++ "\\u" ++ hex4 (56320 + (c.toNat - 65536) % 1024)

/-- `json.dumps` of a string: quoted, characters escaped. -/
def jsonString (s : String) : String :=
  "\"" ++ String.join (s.data.map escapeChar) ++ "\""

/-- `json.dumps(item)` for an intermediate record `[name, id]`
(default separator between array elements is a comma and a space). -/
def dumpsRecord (r : NameRecord) : String :=
  "[" ++ jsonString r.name ++ ", " ++ toString r.id ++ "]"

/-- One NDJSON line as written by the splitter (name_processing.py 93):
`json.dumps(item) + "\n"`. -/
def ndjsonLine (r : NameRecord) : String := dumpsRecord r ++ "\n"

/-- `json.dumps(full)` for a paired record (name_processing.py 244);
dict separators are a comma-space between members and colon-space inside
a member. -/
def dumpsFull (p : FullName) : String :=
  "\x7b\"first\": " ++ jsonString p.first ++ ", \"last\": " ++ jsonString p.last
    ++ ", \"id\": " ++ toString p.id ++ "\x7d"

/-- `json.dumps(rec)` for an unpaired record (name_processing.py 289, 295). -/
def dumpsUnpaired : Unpaired → String
  | .first n i => "\x7b\"first\": " ++ jsonString n ++ ", \"id\": " ++ toString i ++ "\x7d"
  | .last n i => "\x7b\"last\": " ++ jsonString n ++ ", \"id\": " ++ toString i ++ "\x7d"

/-! ### The yielded chunk stream of `convert_to_ndjson_stream` -/

/-- The buffered emission of a sequence of lines: lines are grouped by the
`splitChunks` discipline and each flushed group is `"".join(buffer)`
(name_processing.py 97, 100, 110, 113, 248, 259, 305, 309). -/
def chunkJoin (batchSize : Nat) (lines : List String) : List String :=
  (splitChunks batchSize [] lines).map String.join

/-- The `full_names` entry lines of `merge_full_names` (line 245): the
first entry is prefixed by four spaces, every later entry by four spaces
and a comma. -/
def pairedLines : Bool → List FullName → List String
  | _, [] => []
  | isFirst, p :: rest =>
    ((if isFirst then "    " else "    ,") ++ dumpsFull p ++ "\n") :: pairedLines false rest

/-- The `unpaired` entry lines of `merge_unpaired` (lines 290, 296). -/
def unpairedLines : Bool → List Unpaired → List String
  | _, [] => []
  | isFirst, u :: rest =>
    ((if isFirst then "    " else "    ,") ++ dumpsUnpaired u ++ "\n") :: unpairedLines false rest

/-- The chunk sequence yielded by `convert_to_ndjson_stream`
(name_processing.py 61-131) on an accepted input whose `first_names` and
`last_names` arrays parse to the given record lists, with the scratch
directory name `outputDir` (the `tempfile.mkdtemp` result of line 82).
Step 1 echoes both intermediates in batched groups; step 2 yields one
comment line before each external sort; step 3 yields the JSON envelope
around the batched paired and unpaired sections; finally a comment line
naming the scratch directory is yielded.  Each chunk is UTF-8 encoded by
the code; the model keeps the decoded string. -/
def convertStream (batchSize : Nat) (outputDir : String)
    (firstNames lastNames : List NameRecord) : List String :=
  chunkJoin batchSize (firstNames.map ndjsonLine)
    ++ chunkJoin batchSize (lastNames.map ndjsonLine)
    ++ ["# Sorting first_names...\n", "# Sorting last_names...\n"]
    ++ ["\x7b\n  \"full_names\": [\n"]
    ++ chunkJoin batchSize (pairedLines true
        (merge_full_names (external_sort_ndjson batchSize firstNames)
          (external_sort_ndjson batchSize lastNames)))
    ++ ["  ],\n  \"unpaired\": [\n"]
    ++ chunkJoin batchSize (unpairedLines true
        (merge_unpaired (external_sort_ndjson batchSize firstNames)
          (external_sort_ndjson batchSize lastNames)))
    ++ ["  ]\n\x7d\n"]
    ++ ["# Pipeline finished. Results in " ++ outputDir ++ "\n"]

/-! ### JSON values and the textual JSON grammar -/

/-- A numeric JSON literal: either an integer, or a non-integral number
(ijson hands the latter to Python as a Decimal; the pipeline and the
validator never inspect which, so the model does not carry its digits). -/
inductive JsonNum where
  | int (n : Int)
  | nonIntegral
deriving DecidableEq, Repr

/-- JSON values. -/
inductive Json where
  | null
  | bool (b : Bool)
  | num (n : JsonNum)
  | str (s : String)
  | arr (elems : List Json)
  | obj (members : List (String × Json))

/-- JSON insignificant whitespace. -/
def isJsonWs (c : Char) : Bool :=
  c = ' ' || c = Char.ofNat 10 || c = Char.ofNat 9 || c = Char.ofNat 13

/-- A string of JSON insignificant whitespace. -/
def Ws (s : String) : Prop := s.data.all isJsonWs = true

instance (s : String) : Decidable (Ws s) :=
  inferInstanceAs (Decidable (s.data.all isJsonWs = true))

mutual

/-- `Emits v s`: the string `s` is a rendering of the JSON value `v` -
tokens in grammar order, with arbitrary insignificant whitespace at the
positions the JSON grammar allows, strings escaped as `json.dumps`
escapes them.  A string satisfying `Emits v` parses as the single JSON
value `v`. -/
inductive Emits : Json → String → Prop where
  | str (s : String) : Emits (.str s) (jsonString s)
  | int (n : Int) : Emits (.num (.int n)) (toString n)
  | arrNil (w : String) : Ws w → Emits (.arr []) ("[" ++ w ++ "]")
  | arrCons (w1 s w2 t : String) (v : Json) (vs : List Json) :
      Ws w1 → Emits v s → Ws w2 → EmitsTail vs t →
      Emits (.arr (v :: vs)) ("[" ++ w1 ++ s ++ w2 ++ t ++ "]")
  | objNil (w : String) : Ws w → Emits (.obj []) ("\x7b" ++ w ++ "\x7d")
  | objCons (w1 w2 w3 s w4 t : String) (k : String) (v : Json)
      (kvs : List (String × Json)) :
      Ws w1 → Ws w2 → Ws w3 → Emits v s → Ws w4 → EmitsMemTail kvs t →
      Emits (.obj ((k, v) :: kvs))
        ("\x7b" ++ w1 ++ jsonString k ++ w2 ++ ":" ++ w3 ++ s ++ w4 ++ t ++ "\x7d")

/-- Tail of a JSON array body: zero or more comma-separated further
elements, each with surrounding whitespace. -/
inductive EmitsTail : List Json → String → Prop where
  | nil : EmitsTail [] ""
  | cons (w1 s w2 t : String) (v : Json) (vs : List Json) :
      Ws w1 → Emits v s → Ws w2 → EmitsTail vs t →
      EmitsTail (v :: vs) ("," ++ w1 ++ s ++ w2 ++ t)

/-- Tail of a JSON object body: zero or more comma-separated further
members. -/
inductive EmitsMemTail : List (String × Json) → String → Prop where
  | nil : EmitsMemTail [] ""
  | cons (w1 w2 w3 s w4 t : String) (k : String) (v : Json)
      (kvs : List (String × Json)) :
      Ws w1 → Ws w2 → Ws w3 → Emits v s → Ws w4 → EmitsMemTail kvs t →
      EmitsMemTail ((k, v) :: kvs)
        ("," ++ w1 ++ jsonString k ++ w2 ++ ":" ++ w3 ++ s ++ w4 ++ t)

end

/-- The JSON value a paired output record denotes. -/
def jsonOfFull (p : FullName) : Json :=
  .obj [("first", .str p.first), ("last", .str p.last), ("id", .num (.int p.id))]

/-- The JSON value an unpaired output record denotes. -/
def jsonOfUnpaired : Unpaired → Json
  | .first n i => .obj [("first", .str n), ("id", .num (.int i))]
  | .last n i => .obj [("last", .str n), ("id", .num (.int i))]

/-- Modelled from the spec: a byte stream that "parses as a single valid
JSON object ... with no bytes outside that object" - a rendering of some
JSON object value surrounded only by insignificant whitespace. -/
def SingleJsonObjectDoc (s : String) : Prop :=
  ∃ (ms : List (String × Json)) (t w1 w2 : String),
    Ws w1 ∧ Ws w2 ∧ Emits (.obj ms) t ∧ s = w1 ++ t ++ w2

/-- First non-whitespace character of a string.  A byte stream that is a
single JSON object with nothing outside it must have `some` opening
brace here. -/
def firstNonWsChar (s : String) : Option Char :=
  s.data.find? (fun c => !isJsonWs c)

/-! ### The streaming validator (validators/input_validator.py)

The validator is driven by the ijson event stream of the buffered bytes
(`ijson.parse`), each event a `(prefix, event, value)` triple.  For a
complete, well-formed JSON document the events are determined by the
document alone, so the model works on the event stream generated from a
`Json` value. -/

/-- One ijson event (the `(event, value)` part of a parse triple). -/
inductive JEvent where
  | start_map
  | end_map
  | map_key (k : String)
  | start_array
  | end_array
  | string (s : String)
  | number (n : JsonNum)
  | boolean (b : Bool)
  | null
deriving DecidableEq, Repr

/-- The ijson prefix of a path: its components joined with dots (ijson
builds each event prefix this way; the root path is empty with prefix
`""`, array items append the component `item`, object values append the
key). -/
def prefixOf (path : List String) : String := String.intercalate "." path

mutual

/-- The `(prefix, event, value)` stream `ijson.parse` produces for a
complete document rooted at `path`. -/
def jsonEvents (path : List String) : Json → List (String × JEvent)
  | .null => [(prefixOf path, .null)]
  | .bool b => [(prefixOf path, .boolean b)]
  | .num n => [(prefixOf path, .number n)]
  | .str s => [(prefixOf path, .string s)]
  | .arr es =>
    (prefixOf path, .start_array)
      :: arrEvents (path ++ ["item"]) es ++ [(prefixOf path, .end_array)]
  | .obj ms =>
    (prefixOf path, .start_map) :: objEvents path ms ++ [(prefixOf path, .end_map)]

/-- Events of the elements of an array whose items live at `path`. -/
def arrEvents (path : List String) : List Json → List (String × JEvent)
  | [] => []
  | v :: vs => jsonEvents path v ++ arrEvents path vs

/-- Events of the members of an object at `path`. -/
def objEvents (path : List String) : List (String × Json) → List (String × JEvent)
  | [] => []
  | (k, v) :: ms =>
    (prefixOf path, .map_key k) :: jsonEvents (path ++ [k]) v ++ objEvents path ms

end

/-- Python `prefix.endswith(".item")` (input_validator.py 89). -/
def endsWithItem (pre : String) : Bool :=
  ".item".data.isSuffixOf pre.data

/-- Control state of `StreamingValidator.feed` linearised over the event
stream: `outer` is the outer for-loop of line 81; `scanning n` is the
inner item loop of lines 90-95 having collected `n` string-or-number
values so far; `failed` records that `InvalidInputError` was raised. -/
inductive ScanState where
  | outer
  | scanning (n : Nat)
  | failed
deriving DecidableEq, Repr

/-- Validator state: control state plus the two seen flags
(`_seen_first_names`, `_seen_last_names`). -/
structure VState where
  st : ScanState
  seenF : Bool
  seenL : Bool
deriving DecidableEq, Repr

/-- One event step of `StreamingValidator.feed`.  In the outer loop the
seen flags are updated on a top-level `first_names`/`last_names`
`start_array` (lines 83-86), and a `start_array` whose prefix ends in
`.item` enters the item scan (line 89) with an empty item list.  In the
item scan, `string` and `number` values are collected (line 92-93) and
the first `end_array` ends the scan (line 94); the item fails if it did
not collect exactly two values (line 96). -/
def feedStep (s : VState) (ev : String × JEvent) : VState :=
  match s.st with
  | .failed => s
  | .scanning n =>
    match ev.2 with
    | .string _ => { s with st := .scanning (n + 1) }
    | .number _ => { s with st := .scanning (n + 1) }
    | .end_array => { s with st := if n = 2 then .outer else .failed }
    | _ => s
  | .outer =>
    let seenF := s.seenF || (ev.1 = "first_names" && ev.2 = .start_array)
    let seenL := s.seenL || (ev.1 = "last_names" && ev.2 = .start_array)
    if ev.2 = .start_array && endsWithItem ev.1 then
      ⟨.scanning 0, seenF, seenL⟩
    else
      ⟨.outer, seenF, seenL⟩

/-- The validator state after the complete document has been fed.  (Each
`feed` call re-parses the whole buffer, so after the last chunk the full
event stream has been processed in one pass; earlier partial parses
could only fail on items that the full pass also fails on.) -/
def runValidator (doc : Json) : VState :=
  (jsonEvents [] doc).foldl feedStep ⟨.outer, false, false⟩

/-- Whether `feed` over the complete document followed by `finish`
raises no `InvalidInputError`: the feed pass must not fail (a residual
item scan at end of stream re-checks its arity, line 96), and `finish`
requires at least one of the two seen flags (lines 134-137). -/
def validatorAccepts (doc : Json) : Bool :=
  let s := runValidator doc
  (match s.st with
    | .outer => true
    | .scanning n => n = 2
    | .failed => false)
  && (s.seenF || s.seenL)

/-- Modelled from the spec: the accepted document shape claimed in the
specification (section 4.2) - an object whose keys are drawn from
`first_names`/`last_names`, at least one key present, every value an
array whose items are exactly two-element arrays `[string, number]`.
This is the claim-side predicate compared against `validatorAccepts`. -/
def specShapeItem : Json → Bool
  | .arr [.str _, .num _] => true
  | _ => false

/-- Modelled from the spec: see `specShapeItem`. -/
def specShapeValue : Json → Bool
  | .arr items => items.all specShapeItem
  | _ => false

/-- Modelled from the spec: the full accepted-shape predicate of the
claim (spec section 4.2). -/
def specAcceptedShape : Json → Bool
  | .obj ms =>
    !ms.isEmpty
      && ms.all (fun kv =>
        (kv.1 = "first_names" || kv.1 = "last_names") && specShapeValue kv.2)
  | _ => false

/-- Scalar JSON values (no nested structure). -/
def isScalarJson : Json → Bool
  | .null => true
  | .bool _ => true
  | .num _ => true
  | .str _ => true
  | .arr _ => false
  | .obj _ => false

/-- Whether an event value would be collected by the item scan. -/
def isStrNum : Json → Bool
  | .str _ => true
  | .num _ => true
  | _ => false

/-- How many values the item scan collects from a flat item: its number
of string-or-number elements (the validator compares this against 2). -/
def strNumCount (item : List Json) : Nat := (item.filter isStrNum).length

/-- The event-level effect of replacing numeric literals. -/
def evMap (f : JsonNum → JsonNum) (pe : String × JEvent) : String × JEvent :=
  (pe.1, match pe.2 with
    | .number n => .number (f n)
    | e => e)

/-- A flat document: an object mapping each key to an array of items,
each item an array of scalars.  `docOf ms` builds the `Json` value from
the key/items skeleton. -/
def docOf (ms : List (String × List (List Json))) : Json :=
  .obj (ms.map (fun kv => (kv.1, .arr (kv.2.map .arr))))

mutual

/-- Replace every numeric literal of a document (used to state that the
validator never inspects numeric values). -/
def mapNums (f : JsonNum → JsonNum) : Json → Json
  | .null => .null
  | .bool b => .bool b
  | .num n => .num (f n)
  | .str s => .str s
  | .arr es => .arr (mapNumsList f es)
  | .obj ms => .obj (mapNumsMembers f ms)

/-- `mapNums` over array elements. -/
def mapNumsList (f : JsonNum → JsonNum) : List Json → List Json
  | [] => []
  | v :: vs => mapNums f v :: mapNumsList f vs

/-- `mapNums` over object members. -/
def mapNumsMembers (f : JsonNum → JsonNum) :
    List (String × Json) → List (String × Json)
  | [] => []
  | (k, v) :: ms => (k, mapNums f v) :: mapNumsMembers f ms

end

/-- `StreamingValidator._buffer` after one `feed(chunk)` call: line 75,
`self._buffer += chunk`; no code path ever shrinks or trims the buffer. -/
def feedBuffer (buf chunk : String) : String := buf ++ chunk

/-- The buffer contents after a sequence of `feed` calls, starting from
the empty buffer of `__init__` (line 45). -/
def bufferAfterFeeds (chunks : List String) : String :=
  chunks.foldl feedBuffer ""

/-! ### Filesystem trace of the pipeline (success path)

`convert_to_ndjson_stream` creates the scratch directory with
`tempfile.mkdtemp` (line 82) and writes the two intermediates into it;
each `external_sort_ndjson` call opens a `TemporaryDirectory` inside the
workspace for its chunk files (line 155), which the context manager
removes, and writes the sorted file next to its input.  The endpooint
handler `combine_names` (main.py 89-116) writes the request body to a
`NamedTemporaryFile(delete=False)`.  The trace records which directories
and files the request creates and removes by the time the generator is
exhausted. -/

structure FsTrace where
  createdDirs : List String
  removedDirs : List String
  createdFiles : List String
  removedFiles : List String
deriving Repr

/-- Chunk file names `chunk_0.ndjson`, ... inside a sort temp dir
(name_processing.py 169, 177). -/
def chunkFiles (tmpDir : String) (n : Nat) : List String :=
  (List.range n).map (fun i => tmpDir ++ "/chunk_" ++ toString i ++ ".ndjson")

/-- The filesystem trace of one `external_sort_ndjson` call sorting a
file with stem `stem` in workspace `dir`, with sort temp directory
`tmp` and `n` chunk files.  The `TemporaryDirectory` context manager
removes `tmp` and its chunk files when the sort completes. -/
def externalSortFsTrace (dir tmp stem : String) (n : Nat) : FsTrace :=
  { createdDirs := [tmp]
    removedDirs := [tmp]
    createdFiles := chunkFiles tmp n ++ [dir ++ "/" ++ stem ++ ".sorted.ndjson"]
    removedFiles := chunkFiles tmp n }

/-- Concatenation of traces in program order. -/
def FsTrace.append (a b : FsTrace) : FsTrace :=
  { createdDirs := a.createdDirs ++ b.createdDirs
    removedDirs := a.removedDirs ++ b.removedDirs
    createdFiles := a.createdFiles ++ b.createdFiles
    removedFiles := a.removedFiles ++ b.removedFiles }

/-- The filesystem trace of a completed (successfully exhausted)
`convert_to_ndjson_stream` call with workspace directory `outputDir`
and sort temp directories `tmpA`, `tmpB` holding `nA` and `nB` chunk
files.  The workspace directory and its intermediates are created and
never removed: the function has no cleanup on any path. -/
def convertFsTrace (outputDir tmpA tmpB : String) (nA nB : Nat) : FsTrace :=
  FsTrace.append
    { createdDirs := [outputDir]
      removedDirs := []
      createdFiles := [outputDir ++ "/first_names.ndjson", outputDir ++ "/last_names.ndjson"]
      removedFiles := [] }
    (FsTrace.append
      (externalSortFsTrace outputDir tmpA "first_names" nA)
      (externalSortFsTrace outputDir tmpB "last_names" nB))

/-- The filesystem trace of one completed `combine_names` request
(main.py 89-116): the raw input tempfile `inputTmp` is created with
`delete=False` and never unlinked, then the pipeline trace follows. -/
def combineNamesFsTrace (inputTmp outputDir tmpA tmpB : String) (nA nB : Nat) : FsTrace :=
  FsTrace.append
    { createdDirs := [], removedDirs := [], createdFiles := [inputTmp], removedFiles := [] }
    (convertFsTrace outputDir tmpA tmpB nA nB)

/-! ## Helper lemmas -/

lemma merge_full_names_nil_right (f : List NameRecord) : merge_full_names f [] = [] := by
  cases f <;> rw [merge_full_names.eq_def]

lemma merge_full_names_cons_eq {f l : NameRecord} (fs ls : List NameRecord)
    (h : f.id = l.id) :
    merge_full_names (f :: fs) (l :: ls) = ⟨f.name, l.name, f.id⟩ :: merge_full_names fs ls := by
  rw [merge_full_names.eq_def]
  simp [h]

lemma merge_full_names_cons_lt {f l : NameRecord} (fs ls : List NameRecord)
    (h : f.id < l.id) :
    merge_full_names (f :: fs) (l :: ls) = merge_full_names fs (l :: ls) := by
  rw [merge_full_names.eq_def]
  have hne : ¬ f.id = l.id := by omega
  simp [hne, h]

lemma merge_full_names_cons_gt {f l : NameRecord} (fs ls : List NameRecord)
    (h : l.id < f.id) :
    merge_full_names (f :: fs) (l :: ls) = merge_full_names (f :: fs) ls := by
  rw [merge_full_names.eq_def]
  have hne : ¬ f.id = l.id := by omega
  have hnlt : ¬ f.id < l.id := by omega
  simp [hne, hnlt]

lemma merge_unpaired_cons_eq {f l : NameRecord} (fs ls : List NameRecord)
    (h : f.id = l.id) :
    merge_unpaired (f :: fs) (l :: ls) = merge_unpaired fs ls := by
  rw [merge_unpaired.eq_def]
  have h1 : ¬ f.id < l.id := by omega
  have h2 : ¬ l.id < f.id := by omega
  simp [h1, h2]

lemma merge_unpaired_cons_lt {f l : NameRecord} (fs ls : List NameRecord)
    (h : f.id < l.id) :
    merge_unpaired (f :: fs) (l :: ls) = .first f.name f.id :: merge_unpaired fs (l :: ls) := by
  rw [merge_unpaired.eq_def]
  simp [h]

lemma merge_unpaired_cons_gt {f l : NameRecord} (fs ls : List NameRecord)
    (h : l.id < f.id) :
    merge_unpaired (f :: fs) (l :: ls) = .last l.name l.id :: merge_unpaired (f :: fs) ls := by
  rw [merge_unpaired.eq_def]
  have h1 : ¬ f.id < l.id := by omega
  simp [h1, h]

lemma merge_unpaired_nil_right {f : NameRecord} (fs : List NameRecord) :
    merge_unpaired (f :: fs) [] = .first f.name f.id :: merge_unpaired fs [] := by
  rw [merge_unpaired.eq_def]

lemma merge_unpaired_nil_left {l : NameRecord} (ls : List NameRecord) :
    merge_unpaired [] (l :: ls) = .last l.name l.id :: merge_unpaired [] ls := by
  rw [merge_unpaired.eq_def]

lemma merge_full_names_nil_left (l : List NameRecord) : merge_full_names [] l = [] := by
  cases l <;> rw [merge_full_names.eq_def]

lemma first_side_ids (f l : List NameRecord) :
    (f.map NameRecord.id).Perm
      (((merge_full_names f l).map FullName.id)
        ++ unpairedFirstIds (merge_unpaired f l)) := by
  induction f, l using merge_unpaired.induct with
  | case1 =>
    simp [merge_unpaired.eq_def, merge_full_names.eq_def, unpairedFirstIds]
  | case2 f fs ih =>
    rw [merge_unpaired_nil_right, merge_full_names_nil_right]
    rw [merge_full_names_nil_right] at ih
    simp only [unpairedFirstIds, List.filterMap_cons, List.map_cons, List.map_nil,
      List.nil_append] at *
    exact ih.cons f.id
  | case3 l ls ih =>
    rw [merge_unpaired_nil_left, merge_full_names_nil_left]
    rw [merge_full_names_nil_left] at ih
    simp only [unpairedFirstIds, List.filterMap_cons, List.map_nil, List.nil_append] at *
    exact ih
  | case4 f fs l ls h ih =>
    rw [merge_unpaired_cons_lt fs ls h, merge_full_names_cons_lt fs ls h]
    simp only [unpairedFirstIds, List.filterMap_cons, List.map_cons]
    exact (ih.cons f.id).trans List.perm_middle.symm
  | case5 f fs l ls h1 h2 ih =>
    rw [merge_unpaired_cons_gt fs ls h2, merge_full_names_cons_gt fs ls h2]
    simp only [unpairedFirstIds, List.filterMap_cons]
    exact ih
  | case6 f fs l ls h1 h2 ih =>
    have heq : f.id = l.id := by omega
    rw [merge_unpaired_cons_eq fs ls heq, merge_full_names_cons_eq fs ls heq]
    simp only [List.map_cons, List.cons_append]
    exact ih.cons f.id

lemma last_side_ids (f l : List NameRecord) :
    (l.map NameRecord.id).Perm
      (((merge_full_names f l).map FullName.id)
        ++ unpairedLastIds (merge_unpaired f l)) := by
  induction f, l using merge_unpaired.induct with
  | case1 =>
    simp [merge_unpaired.eq_def, merge_full_names.eq_def, unpairedLastIds]
  | case2 f fs ih =>
    rw [merge_unpaired_nil_right, merge_full_names_nil_right]
    rw [merge_full_names_nil_right] at ih
    simp only [unpairedLastIds, List.filterMap_cons, List.map_nil, List.nil_append] at *
    exact ih
  | case3 l ls ih =>
    rw [merge_unpaired_nil_left, merge_full_names_nil_left]
    rw [merge_full_names_nil_left] at ih
    simp only [unpairedLastIds, List.filterMap_cons, List.map_cons, List.map_nil,
      List.nil_append] at *
    exact ih.cons l.id
  | case4 f fs l ls h ih =>
    rw [merge_unpaired_cons_lt fs ls h, merge_full_names_cons_lt fs ls h]
    simp only [unpairedLastIds, List.filterMap_cons]
    exact ih
  | case5 f fs l ls h1 h2 ih =>
    rw [merge_unpaired_cons_gt fs ls h2, merge_full_names_cons_gt fs ls h2]
    simp only [unpairedLastIds, List.filterMap_cons, List.map_cons]
    exact (ih.cons l.id).trans List.perm_middle.symm
  | case6 f fs l ls h1 h2 ih =>
    have heq : f.id = l.id := by omega
    rw [merge_unpaired_cons_eq fs ls heq, merge_full_names_cons_eq fs ls heq]
    simp only [List.map_cons, List.cons_append]
    rw [← heq]
    exact ih.cons f.id

lemma unpaired_ids_split (us : List Unpaired) :
    (us.map Unpaired.uid).Perm (unpairedFirstIds us ++ unpairedLastIds us) := by
  induction us with
  | nil => simp [unpairedFirstIds, unpairedLastIds]
  | cons u rest ih =>
    cases u with
    | first n i =>
      simp only [unpairedFirstIds, unpairedLastIds, List.filterMap_cons, List.map_cons,
        List.cons_append] at *
      exact ih.cons i
    | last n i =>
      simp only [unpairedFirstIds, unpairedLastIds, List.filterMap_cons, List.map_cons] at *
      exact (ih.cons i).trans List.perm_middle.symm



/-- C1: for every valid input (both sorted intermediates well-formed and
non-decreasing by id), the multiset of input ids from both sides equals
the multiset of output ids with each paired record counted once per side
it consumed (a paired record accounts for one first-side and one
last-side input record) plus the unpaired ids: every input record is
accounted for exactly once, inside a paired record or as an unpaired
record. -/
theorem merged_output_accounts_every_input_id (f l : List NameRecord)
    (hf : List.Sorted idLe f) (hl : List.Sorted idLe l) :
    (↑(f.map NameRecord.id) + ↑(l.map NameRecord.id) : Multiset Int)
      = ↑((merge_full_names f l).map FullName.id)
        + ↑((merge_full_names f l).map FullName.id)
        + ↑((merge_unpaired f l).map Unpaired.uid) := by
  have e1 := Multiset.coe_eq_coe.mpr (first_side_ids f l)
  have e2 := Multiset.coe_eq_coe.mpr (last_side_ids f l)
  have e3 := Multiset.coe_eq_coe.mpr (unpaired_ids_split (merge_unpaired f l))
  rw [e1, e2, e3]
  simp only [← Multiset.coe_add]
  abel

theorem merged_output_accounts_witness :
    List.Sorted idLe [⟨"Alice", 1⟩, ⟨"Bob", 2⟩]
      ∧ List.Sorted idLe [⟨"Smith", 2⟩]
      ∧ (↑((([⟨"Alice", 1⟩, ⟨"Bob", 2⟩] : List NameRecord)).map NameRecord.id)
          + ↑((([⟨"Smith", 2⟩] : List NameRecord)).map NameRecord.id) : Multiset Int)
        = ↑((merge_full_names [⟨"Alice", 1⟩, ⟨"Bob", 2⟩] [⟨"Smith", 2⟩]).map FullName.id)
          + ↑((merge_full_names [⟨"Alice", 1⟩, ⟨"Bob", 2⟩] [⟨"Smith", 2⟩]).map FullName.id)
          + ↑((merge_unpaired [⟨"Alice", 1⟩, ⟨"Bob", 2⟩] [⟨"Smith", 2⟩]).map Unpaired.uid) :=
  ⟨by decide, by decide,
    merged_output_accounts_every_input_id _ _ (by decide) (by decide)⟩

/-- head-bound helper -/
lemma sorted_head_not_mem {c : Int} {l : NameRecord} {ls : List NameRecord}
    (hs : List.Sorted idLe (l :: ls)) (h : c < l.id) :
    c ∉ (l :: ls).map NameRecord.id := by
  intro hmem
  rcases List.mem_map.mp hmem with ⟨r, hr, hrc⟩
  rcases List.mem_cons.mp hr with rfl | hr2
  · omega
  · have := (List.pairwise_cons.mp hs).1 r hr2
    simp only [idLe] at this
    omega

lemma count_ids_zero_of_lt_head {c : Int} {l : NameRecord} {ls : List NameRecord}
    (hs : List.Sorted idLe (l :: ls)) (h : c < l.id) :
    Multiset.count c (↑((l :: ls).map NameRecord.id) : Multiset Int) = 0 :=
  Multiset.count_eq_zero.mpr (by
    intro hmem
    exact sorted_head_not_mem hs h (by simpa using hmem))

lemma paired_ids_inter : ∀ f l : List NameRecord,
    List.Sorted idLe f → List.Sorted idLe l →
    (↑((merge_full_names f l).map FullName.id) : Multiset Int)
      = ↑(f.map NameRecord.id) ∩ ↑(l.map NameRecord.id) := by
  intro f l
  induction f, l using merge_full_names.induct with
  | case1 f fs l ls heq ih =>
    intro hf hl
    rw [merge_full_names_cons_eq fs ls heq]
    have ihh := ih hf.of_cons hl.of_cons
    ext d
    have hcount := congrArg (Multiset.count d) ihh
    simp only [Multiset.count_inter] at hcount ⊢
    simp only [List.map_cons, ← Multiset.cons_coe, Multiset.count_cons] at *
    split_ifs at * <;> omega
  | case2 f fs l ls hne hlt ih =>
    intro hf hl
    rw [merge_full_names_cons_lt fs ls hlt]
    have ihh := ih hf.of_cons hl
    have hz : Multiset.count f.id (↑((l :: ls).map NameRecord.id) : Multiset Int) = 0 :=
      count_ids_zero_of_lt_head hl hlt
    ext d
    have hcount := congrArg (Multiset.count d) ihh
    simp only [Multiset.count_inter] at hcount ⊢
    by_cases hdf : d = f.id
    · subst hdf
      simp only [List.map_cons, ← Multiset.cons_coe, Multiset.count_cons] at *
      split_ifs at * <;> omega
    · simp only [List.map_cons, ← Multiset.cons_coe, Multiset.count_cons] at *
      split_ifs at * <;> omega
  | case3 f fs l ls hne hnlt ih =>
    intro hf hl
    have hgt : l.id < f.id := by omega
    rw [merge_full_names_cons_gt fs ls hgt]
    have ihh := ih hf hl.of_cons
    have hz : Multiset.count l.id (↑((f :: fs).map NameRecord.id) : Multiset Int) = 0 :=
      count_ids_zero_of_lt_head hf hgt
    ext d
    have hcount := congrArg (Multiset.count d) ihh
    simp only [Multiset.count_inter] at hcount ⊢
    by_cases hdl : d = l.id
    · subst hdl
      simp only [List.map_cons, ← Multiset.cons_coe, Multiset.count_cons] at *
      split_ifs at * <;> omega
    · simp only [List.map_cons, ← Multiset.cons_coe, Multiset.count_cons] at *
      split_ifs at * <;> omega
  | case4 x y hcatch =>
    intro hf hl
    match x, y with
    | [], ys =>
      rw [merge_full_names_nil_left]
      simp
    | x :: xs, [] =>
      rw [merge_full_names_nil_right]
      simp
    | x :: xs, y :: ys =>
      exact (hcatch x xs y ys rfl rfl).elim


lemma unpaired_first_ids_sub : ∀ f l : List NameRecord,
    List.Sorted idLe f → List.Sorted idLe l →
    (↑(unpairedFirstIds (merge_unpaired f l)) : Multiset Int)
      = ↑(f.map NameRecord.id) - ↑(l.map NameRecord.id) := by
  intro f l
  induction f, l using merge_unpaired.induct with
  | case1 =>
    intro _ _
    simp [merge_unpaired.eq_def, unpairedFirstIds]
  | case2 f fs ih =>
    intro hf _
    rw [merge_unpaired_nil_right]
    have ihh := ih hf.of_cons (by simp)
    simp only [unpairedFirstIds, List.filterMap_cons] at ihh ⊢
    ext d
    have hcount := congrArg (Multiset.count d) ihh
    simp only [Multiset.count_sub, List.map_cons, List.map_nil, ← Multiset.cons_coe,
      Multiset.count_cons, Multiset.coe_nil, Multiset.count_zero] at *
    split_ifs at * <;> omega
  | case3 l ls ih =>
    intro hf hl
    rw [merge_unpaired_nil_left]
    have ihh := ih (by simp) hl.of_cons
    simp only [unpairedFirstIds, List.filterMap_cons] at ihh ⊢
    ext d
    have hcount := congrArg (Multiset.count d) ihh
    simp only [Multiset.count_sub, List.map_cons, List.map_nil, ← Multiset.cons_coe,
      Multiset.count_cons, Multiset.coe_nil, Multiset.count_zero] at *
    split_ifs at * <;> omega
  | case4 f fs l ls h ih =>
    intro hf hl
    rw [merge_unpaired_cons_lt fs ls h]
    have ihh := ih hf.of_cons hl
    have hz : Multiset.count f.id (↑((l :: ls).map NameRecord.id) : Multiset Int) = 0 :=
      count_ids_zero_of_lt_head hl h
    simp only [unpairedFirstIds, List.filterMap_cons] at ihh ⊢
    ext d
    have hcount := congrArg (Multiset.count d) ihh
    by_cases hdf : d = f.id
    · subst hdf
      simp only [Multiset.count_sub, List.map_cons, ← Multiset.cons_coe,
        Multiset.count_cons] at *
      split_ifs at * <;> omega
    · simp only [Multiset.count_sub, List.map_cons, ← Multiset.cons_coe,
        Multiset.count_cons] at *
      split_ifs at * <;> omega
  | case5 f fs l ls h1 h2 ih =>
    intro hf hl
    rw [merge_unpaired_cons_gt fs ls h2]
    have ihh := ih hf hl.of_cons
    have hz : Multiset.count l.id (↑((f :: fs).map NameRecord.id) : Multiset Int) = 0 :=
      count_ids_zero_of_lt_head hf h2
    simp only [unpairedFirstIds, List.filterMap_cons] at ihh ⊢
    ext d
    have hcount := congrArg (Multiset.count d) ihh
    by_cases hdl : d = l.id
    · subst hdl
      simp only [Multiset.count_sub, List.map_cons, ← Multiset.cons_coe,
        Multiset.count_cons] at *
      split_ifs at * <;> omega
    · simp only [Multiset.count_sub, List.map_cons, ← Multiset.cons_coe,
        Multiset.count_cons] at *
      split_ifs at * <;> omega
  | case6 f fs l ls h1 h2 ih =>
    intro hf hl
    have heq : f.id = l.id := by omega
    rw [merge_unpaired_cons_eq fs ls heq]
    have ihh := ih hf.of_cons hl.of_cons
    ext d
    have hcount := congrArg (Multiset.count d) ihh
    simp only [Multiset.count_sub, List.map_cons, ← Multiset.cons_coe,
      Multiset.count_cons] at *
    split_ifs at * <;> omega

lemma unpaired_last_ids_sub : ∀ f l : List NameRecord,
    List.Sorted idLe f → List.Sorted idLe l →
    (↑(unpairedLastIds (merge_unpaired f l)) : Multiset Int)
      = ↑(l.map NameRecord.id) - ↑(f.map NameRecord.id) := by
  intro f l
  induction f, l using merge_unpaired.induct with
  | case1 =>
    intro _ _
    simp [merge_unpaired.eq_def, unpairedLastIds]
  | case2 f fs ih =>
    intro hf _
    rw [merge_unpaired_nil_right]
    have ihh := ih hf.of_cons (by simp)
    simp only [unpairedLastIds, List.filterMap_cons] at ihh ⊢
    ext d
    have hcount := congrArg (Multiset.count d) ihh
    simp only [Multiset.count_sub, List.map_cons, List.map_nil, ← Multiset.cons_coe,
      Multiset.count_cons, Multiset.coe_nil, Multiset.count_zero] at *
    split_ifs at * <;> omega
  | case3 l ls ih =>
    intro hf hl
    rw [merge_unpaired_nil_left]
    have ihh := ih (by simp) hl.of_cons
    simp only [unpairedLastIds, List.filterMap_cons] at ihh ⊢
    ext d
    have hcount := congrArg (Multiset.count d) ihh
    simp only [Multiset.count_sub, List.map_cons, List.map_nil, ← Multiset.cons_coe,
      Multiset.count_cons, Multiset.coe_nil, Multiset.count_zero] at *
    split_ifs at * <;> omega
  | case4 f fs l ls h ih =>
    intro hf hl
    rw [merge_unpaired_cons_lt fs ls h]
    have ihh := ih hf.of_cons hl
    have hz : Multiset.count f.id (↑((l :: ls).map NameRecord.id) : Multiset Int) = 0 :=
      count_ids_zero_of_lt_head hl h
    simp only [unpairedLastIds, List.filterMap_cons] at ihh ⊢
    ext d
    have hcount := congrArg (Multiset.count d) ihh
    by_cases hdf : d = f.id
    · subst hdf
      simp only [Multiset.count_sub, List.map_cons, ← Multiset.cons_coe,
        Multiset.count_cons] at *
      split_ifs at * <;> omega
    · simp only [Multiset.count_sub, List.map_cons, ← Multiset.cons_coe,
        Multiset.count_cons] at *
      split_ifs at * <;> omega
  | case5 f fs l ls h1 h2 ih =>
    intro hf hl
    rw [merge_unpaired_cons_gt fs ls h2]
    have ihh := ih hf hl.of_cons
    have hz : Multiset.count l.id (↑((f :: fs).map NameRecord.id) : Multiset Int) = 0 :=
      count_ids_zero_of_lt_head hf h2
    simp only [unpairedLastIds, List.filterMap_cons] at ihh ⊢
    ext d
    have hcount := congrArg (Multiset.count d) ihh
    by_cases hdl : d = l.id
    · subst hdl
      simp only [Multiset.count_sub, List.map_cons, ← Multiset.cons_coe,
        Multiset.count_cons] at *
      split_ifs at * <;> omega
    · simp only [Multiset.count_sub, List.map_cons, ← Multiset.cons_coe,
        Multiset.count_cons] at *
      split_ifs at * <;> omega
  | case6 f fs l ls h1 h2 ih =>
    intro hf hl
    have heq : f.id = l.id := by omega
    rw [merge_unpaired_cons_eq fs ls heq]
    have ihh := ih hf.of_cons hl.of_cons
    ext d
    have hcount := congrArg (Multiset.count d) ihh
    simp only [Multiset.count_sub, List.map_cons, ← Multiset.cons_coe,
      Multiset.count_cons] at *
    split_ifs at * <;> omega

/-- C5: for every pair of sorted intermediates and every id `d`, with
`m` first-side and `n` last-side records carrying `d`, the output has
exactly `min m n` paired records with id `d`, and the surplus appears as
`m - n` unpaired records on the first side and `n - m` on the last side
(truncated subtraction: `|m - n|` records on the longer side). -/
theorem duplicate_id_pairing_policy (f l : List NameRecord)
    (hf : List.Sorted idLe f) (hl : List.Sorted idLe l) (d : Int) :
    ((merge_full_names f l).map FullName.id).count d
        = min ((f.map NameRecord.id).count d) ((l.map NameRecord.id).count d)
      ∧ (unpairedFirstIds (merge_unpaired f l)).count d
        = (f.map NameRecord.id).count d - (l.map NameRecord.id).count d
      ∧ (unpairedLastIds (merge_unpaired f l)).count d
        = (l.map NameRecord.id).count d - (f.map NameRecord.id).count d := by
  have h1 := congrArg (Multiset.count d) (paired_ids_inter f l hf hl)
  have h2 := congrArg (Multiset.count d) (unpaired_first_ids_sub f l hf hl)
  have h3 := congrArg (Multiset.count d) (unpaired_last_ids_sub f l hf hl)
  simp only [Multiset.count_inter, Multiset.count_sub, Multiset.coe_count] at h1 h2 h3
  exact ⟨by rw [h1], h2, h3⟩

theorem duplicate_id_pairing_witness :
    List.Sorted idLe [⟨"A", 1⟩, ⟨"B", 1⟩, ⟨"C", 1⟩]
      ∧ List.Sorted idLe [⟨"S", 1⟩, ⟨"T", 1⟩]
      ∧ (((merge_full_names [⟨"A", 1⟩, ⟨"B", 1⟩, ⟨"C", 1⟩] [⟨"S", 1⟩, ⟨"T", 1⟩]).map
            FullName.id).count 1
          = min ((([⟨"A", 1⟩, ⟨"B", 1⟩, ⟨"C", 1⟩] : List NameRecord).map
              NameRecord.id).count 1)
            ((([⟨"S", 1⟩, ⟨"T", 1⟩] : List NameRecord).map NameRecord.id).count 1)
        ∧ (unpairedFirstIds (merge_unpaired [⟨"A", 1⟩, ⟨"B", 1⟩, ⟨"C", 1⟩]
              [⟨"S", 1⟩, ⟨"T", 1⟩])).count 1
          = (([⟨"A", 1⟩, ⟨"B", 1⟩, ⟨"C", 1⟩] : List NameRecord).map NameRecord.id).count 1
            - (([⟨"S", 1⟩, ⟨"T", 1⟩] : List NameRecord).map NameRecord.id).count 1
        ∧ (unpairedLastIds (merge_unpaired [⟨"A", 1⟩, ⟨"B", 1⟩, ⟨"C", 1⟩]
              [⟨"S", 1⟩, ⟨"T", 1⟩])).count 1
          = (([⟨"S", 1⟩, ⟨"T", 1⟩] : List NameRecord).map NameRecord.id).count 1
            - (([⟨"A", 1⟩, ⟨"B", 1⟩, ⟨"C", 1⟩] : List NameRecord).map NameRecord.id).count 1) :=
  ⟨by decide, by decide,
    duplicate_id_pairing_policy _ _ (by decide) (by decide) 1⟩



lemma minHead_none_mem : ∀ ls : List (List NameRecord),
    minHead ls = none → ∀ l ∈ ls, l = [] := by
  intro ls
  induction ls with
  | nil => simp
  | cons hd rest ih =>
    intro hm l hl
    cases hd with
    | nil =>
      rw [minHead] at hm
      have h := Option.map_eq_none'.mp hm
      rcases List.mem_cons.mp hl with rfl | h2
      · rfl
      · exact ih h l h2
    | cons x xs =>
      rw [minHead] at hm
      split at hm
      all_goals try split_ifs at hm
      all_goals exact Option.noConfusion hm

lemma minHead_some_decomp : ∀ (ls : List (List NameRecord)) (r : NameRecord) (i : Nat),
    minHead ls = some (r, i) →
    ∃ pre c post, ls = pre ++ (r :: c) :: post ∧ pre.length = i
      ∧ popHead i ls = pre ++ c :: post := by
  intro ls
  induction ls with
  | nil => intro r i h; exact Option.noConfusion h
  | cons hd rest ih =>
    intro r i h
    cases hd with
    | nil =>
      rw [minHead] at h
      rcases Option.map_eq_some'.mp h with ⟨⟨r', j⟩, hm, hfa⟩
      simp only [Prod.mk.injEq] at hfa
      obtain ⟨rfl, rfl⟩ := hfa
      rcases ih r' j hm with ⟨pre, c, post, hdec, hlen, hpop⟩
      refine ⟨[] :: pre, c, post, by rw [hdec]; rfl, by simp [hlen], ?_⟩
      simp only [popHead]
      rw [hpop]
      rfl
    | cons x xs =>
      rw [minHead] at h
      split at h
      · simp only [Option.some.injEq, Prod.mk.injEq] at h
        obtain ⟨rfl, rfl⟩ := h
        exact ⟨[], xs, rest, by simp, by simp, by simp [popHead]⟩
      · rename_i r' j hm
        split_ifs at h with hc
        · simp only [Option.some.injEq, Prod.mk.injEq] at h
          obtain ⟨rfl, rfl⟩ := h
          rcases ih r' j hm with ⟨pre, c, post, hdec, hlen, hpop⟩
          refine ⟨(x :: xs) :: pre, c, post, by rw [hdec]; rfl, by simp [hlen], ?_⟩
          simp only [popHead]
          rw [hpop]
          rfl
        · simp only [Option.some.injEq, Prod.mk.injEq] at h
          obtain ⟨rfl, rfl⟩ := h
          exact ⟨[], xs, rest, by simp, by simp, by simp [popHead]⟩

lemma minHead_le : ∀ (ls : List (List NameRecord)) (r : NameRecord) (i : Nat),
    minHead ls = some (r, i) →
    ∀ l ∈ ls, ∀ (y : NameRecord) (ys : List NameRecord), l = y :: ys → r.id ≤ y.id := by
  intro ls
  induction ls with
  | nil => intro r i h; exact Option.noConfusion h
  | cons hd rest ih =>
    intro r i h l hl y ys hly
    cases hd with
    | nil =>
      rw [minHead] at h
      rcases Option.map_eq_some'.mp h with ⟨⟨r', j⟩, hm, hfa⟩
      simp only [Prod.mk.injEq] at hfa
      obtain ⟨rfl, rfl⟩ := hfa
      rcases List.mem_cons.mp hl with rfl | h2
      · exact (List.cons_ne_nil y ys hly.symm).elim
      · exact ih r' j hm l h2 y ys hly
    | cons x xs =>
      rw [minHead] at h
      split at h
      · rename_i hm
        simp only [Option.some.injEq, Prod.mk.injEq] at h
        obtain ⟨rfl, rfl⟩ := h
        rcases List.mem_cons.mp hl with rfl | h2
        · have hxy : x = y := by injection hly
          rw [hxy]
        · have := minHead_none_mem rest hm l h2
          rw [this] at hly
          exact (List.cons_ne_nil y ys hly.symm).elim
      · rename_i r' j hm
        split_ifs at h with hc
        · simp only [Option.some.injEq, Prod.mk.injEq] at h
          obtain ⟨rfl, rfl⟩ := h
          rcases List.mem_cons.mp hl with rfl | h2
          · have hxy : x = y := by injection hly
            rw [← hxy]
            omega
          · exact ih r' j hm l h2 y ys hly
        · simp only [Option.some.injEq, Prod.mk.injEq] at h
          obtain ⟨rfl, rfl⟩ := h
          rcases List.mem_cons.mp hl with rfl | h2
          · have hxy : x = y := by injection hly
            rw [hxy]
          · have hr' := ih r' j hm l h2 y ys hly
            omega


lemma splitChunks_flatten {α : Type} (batchSize : Nat) :
    ∀ (xs acc : List α), (splitChunks batchSize acc xs).flatten = acc ++ xs := by
  intro xs
  induction xs with
  | nil =>
    intro acc
    by_cases h : acc.isEmpty
    · simp [splitChunks, h, List.isEmpty_iff.mp h]
    · simp [splitChunks, h]
  | cons x rest ih =>
    intro acc
    by_cases h : batchSize ≤ (acc ++ [x]).length
    · simp only [splitChunks, if_pos h, List.flatten_cons, ih []]
      simp
    · simp only [splitChunks, if_neg h, ih (acc ++ [x])]
      simp

lemma sortChunk_perm (c : List NameRecord) : (sortChunk c).Perm c :=
  List.mergeSort_perm c _

lemma sortChunk_sorted (c : List NameRecord) : List.Sorted idLe (sortChunk c) := by
  have h := @List.sorted_mergeSort NameRecord (fun a b : NameRecord => a.id ≤ b.id)
    (fun a b c hab hbc => by simp only [decide_eq_true_eq] at *; omega)
    (fun a b => by simp only [Bool.or_eq_true, decide_eq_true_eq]; omega) c
  exact h.imp (fun h => by simpa [idLe] using h)

lemma sorted_head_le {y : NameRecord} {ys : List NameRecord}
    (h : List.Sorted idLe (y :: ys)) : ∀ b ∈ y :: ys, y.id ≤ b.id := by
  intro b hb
  rcases List.mem_cons.mp hb with rfl | h2
  · omega
  · exact (List.pairwise_cons.mp h).1 b h2

lemma totalLen_decomp (pre post : List (List NameRecord)) (r : NameRecord)
    (c : List NameRecord) :
    totalLen (pre ++ (r :: c) :: post) = totalLen (pre ++ c :: post) + 1 := by
  simp only [totalLen, List.map_append, List.sum_append, List.map_cons, List.sum_cons,
    List.length_cons]
  omega

lemma totalLen_zero_flatten {ls : List (List NameRecord)} (h : totalLen ls = 0) :
    ls.flatten = [] := by
  rw [List.flatten_eq_nil_iff]
  intro l hl
  have : l.length = 0 := by
    by_contra hne
    have hpos : 0 < l.length := Nat.pos_of_ne_zero hne
    have : l.length ≤ totalLen ls := by
      simp only [totalLen]
      exact List.le_sum_of_mem (List.mem_map_of_mem List.length hl)
    omega
  exact List.eq_nil_of_length_eq_zero this

lemma kMergeFuel_perm : ∀ (fuel : Nat) (ls : List (List NameRecord)),
    totalLen ls ≤ fuel → (kMergeFuel fuel ls).Perm ls.flatten := by
  intro fuel
  induction fuel with
  | zero =>
    intro ls h
    rw [kMergeFuel, totalLen_zero_flatten (Nat.le_zero.mp h)]
  | succ fuel ih =>
    intro ls h
    rw [kMergeFuel]
    rcases hm : minHead ls with _ | ⟨r, i⟩
    · have : ls.flatten = [] := by
        rw [List.flatten_eq_nil_iff]
        exact minHead_none_mem ls hm
      rw [this]
    · rcases minHead_some_decomp ls r i hm with ⟨pre, c, post, hdec, hlen, hpop⟩
      have htot : totalLen (popHead i ls) + 1 = totalLen ls := by
        rw [hpop, hdec, totalLen_decomp]
      have hle : totalLen (popHead i ls) ≤ fuel := by omega
      have hperm := (ih (popHead i ls) hle).cons r
      refine hperm.trans ?_
      rw [hpop, hdec]
      simp only [List.flatten_append, List.flatten_cons, List.cons_append,
        List.append_assoc]
      exact List.perm_middle.symm

lemma kMergeFuel_sorted : ∀ (fuel : Nat) (ls : List (List NameRecord)),
    totalLen ls ≤ fuel → (∀ l ∈ ls, List.Sorted idLe l) →
    List.Sorted idLe (kMergeFuel fuel ls) := by
  intro fuel
  induction fuel with
  | zero =>
    intro ls _ _
    rw [kMergeFuel]
    exact List.sorted_nil
  | succ fuel ih =>
    intro ls h hsort
    rw [kMergeFuel]
    rcases hm : minHead ls with _ | ⟨r, i⟩
    · exact List.sorted_nil
    · rcases minHead_some_decomp ls r i hm with ⟨pre, c, post, hdec, hlen, hpop⟩
      have htot : totalLen (popHead i ls) + 1 = totalLen ls := by
        rw [hpop, hdec, totalLen_decomp]
      have hle : totalLen (popHead i ls) ≤ fuel := by omega
      have hrc_mem : (r :: c) ∈ ls := by
        rw [hdec]
        exact List.mem_append_right _ (List.mem_cons_self _ _)
      have hpop_sorted : ∀ l ∈ popHead i ls, List.Sorted idLe l := by
        intro l hl
        rw [hpop] at hl
        rcases List.mem_append.mp hl with hpre | hcpost
        · exact hsort l (hdec ▸ List.mem_append_left _ hpre)
        · rcases List.mem_cons.mp hcpost with rfl | hpost
          · exact (hsort _ hrc_mem).of_cons
          · exact hsort l (hdec ▸ List.mem_append_right _ (List.mem_cons_of_mem _ hpost))
      rw [List.sorted_cons]
      refine ⟨?_, ih (popHead i ls) hle hpop_sorted⟩
      intro b hb
      have hbmem : b ∈ (popHead i ls).flatten :=
        (kMergeFuel_perm fuel (popHead i ls) hle).mem_iff.mp hb
      rcases List.mem_flatten.mp hbmem with ⟨l, hl, hbl⟩
      rw [hpop] at hl
      rcases List.mem_append.mp hl with hpre | hcpost
      · have hls : l ∈ ls := hdec ▸ List.mem_append_left _ hpre
        cases l with
        | nil => exact absurd hbl (List.not_mem_nil b)
        | cons y ys =>
          have h1 : r.id ≤ y.id := minHead_le ls r i hm _ hls y ys rfl
          have h2 : y.id ≤ b.id := sorted_head_le (hsort _ hls) b hbl
          show idLe r b
          simp only [idLe]
          omega
      · rcases List.mem_cons.mp hcpost with rfl | hpost
        · have := (List.pairwise_cons.mp (hsort _ hrc_mem)).1 b hbl
          exact this
        · have hls : l ∈ ls := hdec ▸ List.mem_append_right _ (List.mem_cons_of_mem _ hpost)
          cases l with
          | nil => exact absurd hbl (List.not_mem_nil b)
          | cons y ys =>
            have h1 : r.id ≤ y.id := minHead_le ls r i hm _ hls y ys rfl
            have h2 : y.id ≤ b.id := sorted_head_le (hsort _ hls) b hbl
            show idLe r b
            simp only [idLe]
            omega

lemma map_sortChunk_flatten_perm (chunks : List (List NameRecord)) :
    ((chunks.map sortChunk).flatten).Perm chunks.flatten := by
  induction chunks with
  | nil => rfl
  | cons c rest ih =>
    simp only [List.map_cons, List.flatten_cons]
    exact (sortChunk_perm c).append ih

/-- C4: the external sort output is a permutation of the input record
sequence (same multiset of records) and is monotonic non-decreasing by
id. -/
theorem external_sort_permutation_and_monotone (batchSize : Nat)
    (records : List NameRecord) :
    ((external_sort_ndjson batchSize records : List NameRecord) : Multiset NameRecord)
        = (↑records : Multiset NameRecord)
      ∧ List.Sorted idLe (external_sort_ndjson batchSize records) := by
  constructor
  · apply Multiset.coe_eq_coe.mpr
    have h1 := kMergeFuel_perm
      (totalLen ((splitChunks batchSize [] records).map sortChunk))
      ((splitChunks batchSize [] records).map sortChunk) (Nat.le_refl _)
    refine h1.trans ?_
    refine (map_sortChunk_flatten_perm (splitChunks batchSize [] records)).trans ?_
    rw [splitChunks_flatten]
    simp
  · apply kMergeFuel_sorted _ _ (Nat.le_refl _)
    intro l hl
    rcases List.mem_map.mp hl with ⟨c, _, rfl⟩
    exact sortChunk_sorted c



lemma ws_data_all {w : String} (hw : Ws w) : ∀ c ∈ w.data, isJsonWs c = true := by
  intro c hc
  exact List.all_eq_true.mp hw c hc

lemma firstNonWsChar_ws_append {w : String} (hw : Ws w) (r : String) :
    firstNonWsChar (w ++ r) = firstNonWsChar r := by
  simp only [firstNonWsChar, String.data_append, List.find?_append]
  have : w.data.find? (fun c => !isJsonWs c) = none := by
    rw [List.find?_eq_none]
    intro c hc
    simp [ws_data_all hw c hc]
  rw [this]
  rfl

lemma emits_obj_data_head {ms : List (String × Json)} {t : String}
    (h : Emits (.obj ms) t) : ∃ r : String, t = "\x7b" ++ r := by
  cases h with
  | objNil w hw => exact ⟨w ++ "\x7d", by rw [String.append_assoc]⟩
  | objCons w1 w2 w3 s w4 t k v kvs hw1 hw2 hw3 hs hw4 ht =>
    exact ⟨w1 ++ jsonString k ++ w2 ++ ":" ++ w3 ++ s ++ w4 ++ t ++ "\x7d", by
      simp only [String.append_assoc]⟩

/-- C2 counterexample: on the accepted input with two empty name lists,
the byte stream of `convert_to_ndjson_stream` is not a single JSON
object with nothing outside it - its first non-whitespace character is
`#` (the first sort progress comment), which cannot begin a JSON
object. -/
theorem convert_stream_not_single_json_object :
    firstNonWsChar (String.join (convertStream 100 "/tmp/ndjson_demo" [] [])) = some '#'
      ∧ ¬ SingleJsonObjectDoc (String.join (convertStream 100 "/tmp/ndjson_demo" [] [])) := by
  have e3 : external_sort_ndjson 100 ([] : List NameRecord) = [] := rfl
  have e : merge_full_names [] [] = [] := by rw [merge_full_names.eq_def]
  have e2 : merge_unpaired [] [] = [] := by rw [merge_unpaired.eq_def]
  have hstream : convertStream 100 "/tmp/ndjson_demo" [] []
      = ["# Sorting first_names...\n", "# Sorting last_names...\n",
         "\x7b\n  \"full_names\": [\n", "  ],\n  \"unpaired\": [\n", "  ]\n\x7d\n",
         "# Pipeline finished. Results in /tmp/ndjson_demo\n"] := by
    simp only [convertStream, e3, e, e2]
    rfl
  rw [hstream]
  constructor
  · decide
  · rintro ⟨ms, t, w1, w2, hw1, hw2, hE, heq⟩
    rcases emits_obj_data_head hE with ⟨r, rfl⟩
    have h1 : firstNonWsChar (w1 ++ ("\x7b" ++ r) ++ w2) = some '#' := by
      rw [← heq]
      decide
    rw [String.append_assoc] at h1
    rw [firstNonWsChar_ws_append hw1] at h1
    have h2 : firstNonWsChar ("\x7b" ++ (r ++ w2)) = some '\x7b' := by
      simp only [firstNonWsChar, String.data_append]
      rfl
    rw [String.append_assoc] at h1
    rw [h2] at h1
    simp at h1

/-- C7: in the yielded chunk stream, the complete paired section comes
before the complete unpaired section: the stream splits as a prefix,
then every paired-section chunk, then the section separator, then every
unpaired-section chunk, then the rest. -/
theorem paired_section_emitted_before_unpaired (batchSize : Nat) (outputDir : String)
    (firstNames lastNames : List NameRecord) :
    ∃ pre mid post : List String,
      convertStream batchSize outputDir firstNames lastNames
        = pre
          ++ chunkJoin batchSize (pairedLines true
              (merge_full_names (external_sort_ndjson batchSize firstNames)
                (external_sort_ndjson batchSize lastNames)))
          ++ mid
          ++ chunkJoin batchSize (unpairedLines true
              (merge_unpaired (external_sort_ndjson batchSize firstNames)
                (external_sort_ndjson batchSize lastNames)))
          ++ post := by
  refine ⟨chunkJoin batchSize (firstNames.map ndjsonLine)
      ++ chunkJoin batchSize (lastNames.map ndjsonLine)
      ++ ["# Sorting first_names...\n", "# Sorting last_names...\n"]
      ++ ["\x7b\n  \"full_names\": [\n"],
    ["  ],\n  \"unpaired\": [\n"],
    ["  ]\n\x7d\n"] ++ ["# Pipeline finished. Results in " ++ outputDir ++ "\n"], ?_⟩
  simp only [convertStream, List.append_assoc]

/-- C3 counterexample: at the end of a successfully completed request
(concrete names shown), the workspace scratch directory was created but
is not among the removed directories, and the raw input tempfile is not
among the removed files: neither is cleaned up. -/
theorem workspace_not_removed_counterexample :
    "/tmp/ndjson_w" ∈ (combineNamesFsTrace "/tmp/in.json" "/tmp/ndjson_w"
        "/tmp/ndjson_w/ta" "/tmp/ndjson_w/tb" 1 1).createdDirs
      ∧ "/tmp/ndjson_w" ∉ (combineNamesFsTrace "/tmp/in.json" "/tmp/ndjson_w"
        "/tmp/ndjson_w/ta" "/tmp/ndjson_w/tb" 1 1).removedDirs
      ∧ "/tmp/in.json" ∈ (combineNamesFsTrace "/tmp/in.json" "/tmp/ndjson_w"
        "/tmp/ndjson_w/ta" "/tmp/ndjson_w/tb" 1 1).createdFiles
      ∧ "/tmp/in.json" ∉ (combineNamesFsTrace "/tmp/in.json" "/tmp/ndjson_w"
        "/tmp/ndjson_w/ta" "/tmp/ndjson_w/tb" 1 1).removedFiles := by
  decide

/-- C3 amended: on request completion only the sort chunk directories
(and their chunk files) are removed; the workspace directory with its
intermediates and the raw input tempfile are created and never removed,
for every choice of (fresh) names. -/
theorem workspace_and_input_tempfile_persist (inputTmp outputDir tmpA tmpB : String)
    (nA nB : Nat) (hA : outputDir ≠ tmpA) (hB : outputDir ≠ tmpB)
    (hIA : inputTmp ∉ chunkFiles tmpA nA) (hIB : inputTmp ∉ chunkFiles tmpB nB) :
    outputDir ∈ (combineNamesFsTrace inputTmp outputDir tmpA tmpB nA nB).createdDirs
      ∧ outputDir ∉ (combineNamesFsTrace inputTmp outputDir tmpA tmpB nA nB).removedDirs
      ∧ inputTmp ∈ (combineNamesFsTrace inputTmp outputDir tmpA tmpB nA nB).createdFiles
      ∧ inputTmp ∉ (combineNamesFsTrace inputTmp outputDir tmpA tmpB nA nB).removedFiles
      ∧ tmpA ∈ (combineNamesFsTrace inputTmp outputDir tmpA tmpB nA nB).removedDirs
      ∧ tmpB ∈ (combineNamesFsTrace inputTmp outputDir tmpA tmpB nA nB).removedDirs := by
  refine ⟨?_, ?_, ?_, ?_, ?_, ?_⟩
  · simp [combineNamesFsTrace, convertFsTrace, externalSortFsTrace, FsTrace.append]
  · simp [combineNamesFsTrace, convertFsTrace, externalSortFsTrace, FsTrace.append,
      hA, hB]
  · simp [combineNamesFsTrace, convertFsTrace, externalSortFsTrace, FsTrace.append]
  · simp only [combineNamesFsTrace, convertFsTrace, externalSortFsTrace, FsTrace.append,
      List.nil_append]
    intro h
    rcases List.mem_append.mp h with h2 | h2
    · exact hIA h2
    · exact hIB h2
  · simp [combineNamesFsTrace, convertFsTrace, externalSortFsTrace, FsTrace.append]
  · simp [combineNamesFsTrace, convertFsTrace, externalSortFsTrace, FsTrace.append]

/-- Witness for the amended C3 theorem at concrete fresh names. -/
theorem workspace_persist_witness :
    ("/tmp/ndjson_w" : String) ≠ "/tmp/ndjson_w/ta"
      ∧ ("/tmp/in.json" : String) ∉ chunkFiles "/tmp/ndjson_w/ta" 1
      ∧ "/tmp/ndjson_w" ∈ (combineNamesFsTrace "/tmp/in.json" "/tmp/ndjson_w"
          "/tmp/ndjson_w/ta" "/tmp/ndjson_w/tb" 1 1).createdDirs
      ∧ "/tmp/ndjson_w" ∉ (combineNamesFsTrace "/tmp/in.json" "/tmp/ndjson_w"
          "/tmp/ndjson_w/ta" "/tmp/ndjson_w/tb" 1 1).removedDirs := by
  refine ⟨by decide, by decide, ?_, ?_⟩
  · exact (workspace_and_input_tempfile_persist "/tmp/in.json" "/tmp/ndjson_w"
      "/tmp/ndjson_w/ta" "/tmp/ndjson_w/tb" 1 1 (by decide) (by decide)
      (by decide) (by decide)).1
  · exact (workspace_and_input_tempfile_persist "/tmp/in.json" "/tmp/ndjson_w"
      "/tmp/ndjson_w/ta" "/tmp/ndjson_w/tb" 1 1 (by decide) (by decide)
      (by decide) (by decide)).2.1


mutual

theorem mapNums_events (f : JsonNum → JsonNum) (path : List String) :
    ∀ v : Json, jsonEvents path (mapNums f v) = (jsonEvents path v).map (evMap f)
  | .null => by simp [mapNums, jsonEvents, evMap]
  | .bool b => by simp [mapNums, jsonEvents, evMap]
  | .num n => by simp [mapNums, jsonEvents, evMap]
  | .str s => by simp [mapNums, jsonEvents, evMap]
  | .arr es => by
    simp only [mapNums, jsonEvents, mapNumsList_events f (path ++ ["item"]) es,
      List.map_cons, List.map_append, List.map_cons, List.map_nil, evMap]
  | .obj ms => by
    simp only [mapNums, jsonEvents, mapNumsMembers_events f path ms,
      List.map_cons, List.map_append, List.map_nil, evMap]

theorem mapNumsList_events (f : JsonNum → JsonNum) (path : List String) :
    ∀ vs : List Json, arrEvents path (mapNumsList f vs) = (arrEvents path vs).map (evMap f)
  | [] => by simp [mapNumsList, arrEvents]
  | v :: vs => by
    simp only [mapNumsList, arrEvents, mapNums_events f path v,
      mapNumsList_events f path vs, List.map_append]

theorem mapNumsMembers_events (f : JsonNum → JsonNum) (path : List String) :
    ∀ ms : List (String × Json),
      objEvents path (mapNumsMembers f ms) = (objEvents path ms).map (evMap f)
  | [] => by simp [mapNumsMembers, objEvents]
  | (k, v) :: ms => by
    simp only [mapNumsMembers, objEvents, mapNums_events f (path ++ [k]) v,
      mapNumsMembers_events f path ms, List.map_cons, List.map_append, evMap]

end

lemma feedStep_evMap (f : JsonNum → JsonNum) (s : VState) (ev : String × JEvent) :
    feedStep s (evMap f ev) = feedStep s ev := by
  rcases ev with ⟨p, e⟩
  rcases s with ⟨st, F, L⟩
  cases st <;> cases e <;> rfl

/-- C8 amended: the validator never inspects numeric values - replacing
every numeric literal of a document (in particular, replacing integer
ids by non-integral numbers or vice versa) does not change whether
feed/finish raise. -/
theorem validator_ignores_numeric_values (f : JsonNum → JsonNum) (doc : Json) :
    validatorAccepts (mapNums f doc) = validatorAccepts doc := by
  have hrun : runValidator (mapNums f doc) = runValidator doc := by
    simp only [runValidator, mapNums_events f [] doc, List.foldl_map,
      feedStep_evMap f]
  simp only [validatorAccepts, hrun]

/-- C8 counterexample: the document
`{"first_names": [["A", 1.5]]}` (a non-integral numeric id) is accepted
by the validator - `feed`/`finish` raise nothing - although the claim
requires it to raise `InvalidInputError`. -/
theorem float_id_accepted_counterexample :
    validatorAccepts
        (.obj [("first_names", .arr [.arr [.str "A", .num .nonIntegral]])]) = true := by
  decide

/-- C6 counterexample: the document `{"first_names": [[1, 2]]}` is not
of the claimed accepted shape (its item is not `[string, number]`), yet
the validator accepts it: feed only counts string/number values and
checks the count, never the types or order. -/
theorem validator_shape_iff_counterexample :
    validatorAccepts (.obj [("first_names", .arr [.arr [.num (.int 1), .num (.int 2)]])])
        = true
      ∧ specAcceptedShape
          (.obj [("first_names", .arr [.arr [.num (.int 1), .num (.int 2)]])]) = false := by
  decide


lemma prefixOf_single (k : String) : prefixOf [k] = k := by
  simp [prefixOf, String.intercalate, String.intercalate.go]

lemma prefixOf_key_item (k : String) : prefixOf [k, "item"] = k ++ ".item" := by
  simp only [prefixOf, String.intercalate, String.intercalate.go]
  rw [String.append_assoc]
  rfl

lemma endsWithItem_append (s : String) : endsWithItem (s ++ ".item") = true := by
  simp [endsWithItem, String.data_append, List.isSuffixOf]

lemma ne_names_of_endsWithItem {q : String} (h : endsWithItem q = true) :
    q ≠ "first_names" ∧ q ≠ "last_names" := by
  constructor
  · rintro rfl
    exact absurd h (by decide)
  · rintro rfl
    exact absurd h (by decide)

lemma foldl_feedStep_failed (evs : List (String × JEvent)) (F L : Bool) :
    evs.foldl feedStep ⟨.failed, F, L⟩ = ⟨.failed, F, L⟩ := by
  induction evs with
  | nil => rfl
  | cons ev rest ih => exact ih

lemma scan_scalars (path : List String) :
    ∀ (ss : List Json), (∀ x ∈ ss, isScalarJson x = true) →
    ∀ (n : Nat) (F L : Bool),
    (arrEvents path ss).foldl feedStep ⟨.scanning n, F, L⟩
      = ⟨.scanning (n + strNumCount ss), F, L⟩ := by
  intro ss
  induction ss with
  | nil =>
    intro _ n F L
    simp [arrEvents, strNumCount]
  | cons x rest ih =>
    intro hsc n F L
    have hx : isScalarJson x = true := hsc x (List.mem_cons_self x rest)
    have hrest : ∀ y ∈ rest, isScalarJson y = true :=
      fun y hy => hsc y (List.mem_cons_of_mem x hy)
    rw [arrEvents, List.foldl_append]
    cases x with
    | null =>
      simp only [jsonEvents, List.foldl_cons, List.foldl_nil, feedStep]
      rw [ih hrest n F L]
      simp [strNumCount, List.filter_cons, isStrNum]
    | bool b =>
      simp only [jsonEvents, List.foldl_cons, List.foldl_nil, feedStep]
      rw [ih hrest n F L]
      simp [strNumCount, List.filter_cons, isStrNum]
    | num m =>
      simp only [jsonEvents, List.foldl_cons, List.foldl_nil, feedStep]
      rw [ih hrest (n + 1) F L]
      have : n + 1 + strNumCount rest = n + strNumCount (Json.num m :: rest) := by
        simp [strNumCount, List.filter_cons, isStrNum]
        omega
      rw [this]
    | str s =>
      simp only [jsonEvents, List.foldl_cons, List.foldl_nil, feedStep]
      rw [ih hrest (n + 1) F L]
      have : n + 1 + strNumCount rest = n + strNumCount (Json.str s :: rest) := by
        simp [strNumCount, List.filter_cons, isStrNum]
        omega
      rw [this]
    | arr es => exact absurd hx (by simp [isScalarJson])
    | obj ms => exact absurd hx (by simp [isScalarJson])

lemma run_item (ipath : List String) (ss : List Json)
    (hsc : ∀ x ∈ ss, isScalarJson x = true)
    (hq : endsWithItem (prefixOf ipath) = true) (F L : Bool) :
    (jsonEvents ipath (.arr ss)).foldl feedStep ⟨.outer, F, L⟩
      = ⟨if strNumCount ss = 2 then .outer else .failed, F, L⟩ := by
  obtain ⟨hqf, hql⟩ := ne_names_of_endsWithItem hq
  have hstep : feedStep ⟨.outer, F, L⟩ (prefixOf ipath, .start_array)
      = ⟨.scanning 0, F, L⟩ := by
    simp [feedStep, hq, hqf, hql]
  rw [jsonEvents]
  simp only [List.foldl_cons, List.foldl_append, List.foldl_nil]
  rw [hstep, scan_scalars _ ss hsc 0 F L]
  simp [feedStep, strNumCount]

lemma run_items (vpath : List String) :
    ∀ (items : List (List Json)),
    (∀ it ∈ items, ∀ x ∈ it, isScalarJson x = true) →
    endsWithItem (prefixOf (vpath ++ ["item"])) = true →
    ∀ (F L : Bool),
    (arrEvents (vpath ++ ["item"]) (items.map .arr)).foldl feedStep ⟨.outer, F, L⟩
      = ⟨if items.all (fun it => strNumCount it = 2) then .outer else .failed, F, L⟩ := by
  intro items
  induction items with
  | nil =>
    intro _ _ F L
    simp [arrEvents]
  | cons it rest ih =>
    intro hsc hq F L
    have hit : ∀ x ∈ it, isScalarJson x = true := hsc it (List.mem_cons_self it rest)
    have hrest : ∀ j ∈ rest, ∀ x ∈ j, isScalarJson x = true :=
      fun j hj => hsc j (List.mem_cons_of_mem it hj)
    rw [List.map_cons, arrEvents, List.foldl_append, run_item _ it hit hq F L]
    by_cases h2 : strNumCount it = 2
    · rw [if_pos h2, ih hrest hq F L]
      simp [h2]
    · rw [if_neg h2, foldl_feedStep_failed]
      simp [List.all_cons, h2]


lemma run_value (k : String) (items : List (List Json))
    (hsc : ∀ it ∈ items, ∀ x ∈ it, isScalarJson x = true)
    (hk : endsWithItem k = false) (F L : Bool) :
    (jsonEvents [k] (.arr (items.map .arr))).foldl feedStep ⟨.outer, F, L⟩
      = ⟨if items.all (fun it => strNumCount it = 2) then .outer else .failed,
         F || decide (k = "first_names"), L || decide (k = "last_names")⟩ := by
  have hq : endsWithItem (prefixOf ([k] ++ ["item"])) = true := by
    rw [show [k] ++ ["item"] = [k, "item"] from rfl, prefixOf_key_item]
    exact endsWithItem_append k
  rw [jsonEvents]
  simp only [List.foldl_cons, List.foldl_append, List.foldl_nil, prefixOf_single]
  have hstep : feedStep ⟨.outer, F, L⟩ (k, .start_array)
      = ⟨.outer, F || decide (k = "first_names"), L || decide (k = "last_names")⟩ := by
    simp [feedStep, hk]
  rw [hstep, run_items [k] items hsc hq]
  by_cases hall : items.all (fun it => strNumCount it = 2) = true
  · rw [hall]
    simp [feedStep]
  · rw [Bool.not_eq_true] at hall
    rw [hall]
    simp [feedStep]

lemma run_members_ok : ∀ (ms : List (String × List (List Json))),
    (∀ kv ∈ ms, ∀ it ∈ kv.2, ∀ x ∈ it, isScalarJson x = true) →
    (∀ kv ∈ ms, endsWithItem kv.1 = false) →
    (∀ kv ∈ ms, ∀ it ∈ kv.2, strNumCount it = 2) →
    ∀ F L : Bool,
    (objEvents [] (ms.map (fun kv => (kv.1, Json.arr (kv.2.map .arr))))).foldl
        feedStep ⟨.outer, F, L⟩
      = ⟨.outer, F || ms.any (fun kv => decide (kv.1 = "first_names")),
                 L || ms.any (fun kv => decide (kv.1 = "last_names"))⟩ := by
  intro ms
  induction ms with
  | nil =>
    intro _ _ _ F L
    simp [objEvents]
  | cons kv rest ih =>
    intro hsc hkeys hall F L
    rcases kv with ⟨k, items⟩
    have h1 : ∀ it ∈ items, ∀ x ∈ it, isScalarJson x = true :=
      fun it hit => hsc (k, items) (List.mem_cons_self _ _) it hit
    have h2 : endsWithItem k = false := hkeys (k, items) (List.mem_cons_self _ _)
    have h3 : items.all (fun it => strNumCount it = 2) = true := by
      rw [List.all_eq_true]
      intro it hit
      simpa using hall (k, items) (List.mem_cons_self _ _) it hit
    rw [List.map_cons, objEvents]
    simp only [List.foldl_cons, List.foldl_append]
    have hmk : feedStep ⟨.outer, F, L⟩ (prefixOf [], .map_key k) = ⟨.outer, F, L⟩ := by
      simp [feedStep, prefixOf, String.intercalate]
    rw [hmk, show ([] : List String) ++ [k] = [k] from rfl,
      run_value k items h1 h2 F L, h3, if_pos rfl]
    rw [ih (fun kv hkv => hsc kv (List.mem_cons_of_mem _ hkv))
      (fun kv hkv => hkeys kv (List.mem_cons_of_mem _ hkv))
      (fun kv hkv => hall kv (List.mem_cons_of_mem _ hkv))]
    simp [List.any_cons, Bool.or_assoc]

lemma run_members_bad : ∀ (ms : List (String × List (List Json))),
    (∀ kv ∈ ms, ∀ it ∈ kv.2, ∀ x ∈ it, isScalarJson x = true) →
    (∀ kv ∈ ms, endsWithItem kv.1 = false) →
    ms.all (fun kv => kv.2.all (fun it => decide (strNumCount it = 2))) = false →
    ∀ F L : Bool,
    ((objEvents [] (ms.map (fun kv => (kv.1, Json.arr (kv.2.map .arr))))).foldl
        feedStep ⟨.outer, F, L⟩).st = .failed := by
  intro ms
  induction ms with
  | nil =>
    intro _ _ hbad
    simp at hbad
  | cons kv rest ih =>
    intro hsc hkeys hbad F L
    rcases kv with ⟨k, items⟩
    have h1 : ∀ it ∈ items, ∀ x ∈ it, isScalarJson x = true :=
      fun it hit => hsc (k, items) (List.mem_cons_self _ _) it hit
    have h2 : endsWithItem k = false := hkeys (k, items) (List.mem_cons_self _ _)
    rw [List.map_cons, objEvents]
    simp only [List.foldl_cons, List.foldl_append]
    have hmk : feedStep ⟨.outer, F, L⟩ (prefixOf [], .map_key k) = ⟨.outer, F, L⟩ := by
      simp [feedStep, prefixOf, String.intercalate]
    rw [hmk, show ([] : List String) ++ [k] = [k] from rfl, run_value k items h1 h2 F L]
    by_cases hthis : items.all (fun it => strNumCount it = 2) = true
    · rw [hthis, if_pos rfl]
      apply ih (fun kv hkv => hsc kv (List.mem_cons_of_mem _ hkv))
        (fun kv hkv => hkeys kv (List.mem_cons_of_mem _ hkv))
      simp only [List.all_cons, Bool.and_eq_false_iff] at hbad
      rcases hbad with hbad | hbad
      · rw [show (fun it => decide (strNumCount it = 2)) = (fun it => strNumCount it = 2)
          from rfl] at hbad
        exact absurd hthis (by rw [hbad]; exact Bool.false_ne_true)
      · exact hbad
    · rw [Bool.not_eq_true] at hthis
      rw [hthis, if_neg (by simp)]
      rw [foldl_feedStep_failed]


/-- C6 amended: for flat documents (an object whose values are arrays of
arrays of scalars, with no key ending in `.item`), feed plus finish
accept exactly when at least one of `first_names`/`last_names` occurs as
a top-level key and every item under every key carries exactly two
string-or-number elements.  This differs from the claimed shape: unknown
keys are allowed, element types and order inside an item are not
checked, and non-string/non-number scalars in an item are ignored. -/
theorem validator_accepts_iff_flat_shape (ms : List (String × List (List Json)))
    (hsc : ∀ kv ∈ ms, ∀ it ∈ kv.2, ∀ x ∈ it, isScalarJson x = true)
    (hkeys : ∀ kv ∈ ms, endsWithItem kv.1 = false) :
    validatorAccepts (docOf ms) = true
      ↔ ((∃ kv ∈ ms, kv.1 = "first_names" ∨ kv.1 = "last_names")
          ∧ ∀ kv ∈ ms, ∀ it ∈ kv.2, strNumCount it = 2) := by
  have hev : jsonEvents [] (docOf ms)
      = (prefixOf [], .start_map)
          :: objEvents [] (ms.map fun kv => (kv.1, .arr (kv.2.map .arr)))
          ++ [(prefixOf [], .end_map)] := by
    rw [docOf, jsonEvents]
  have hsm : feedStep ⟨.outer, false, false⟩ (prefixOf [], JEvent.start_map)
      = ⟨.outer, false, false⟩ := by
    simp [feedStep, prefixOf, String.intercalate]
  by_cases hall : ∀ kv ∈ ms, ∀ it ∈ kv.2, strNumCount it = 2
  · rw [validatorAccepts]
    rw [runValidator, hev]
    simp only [List.foldl_cons, List.foldl_append, List.foldl_nil]
    rw [hsm, run_members_ok ms hsc hkeys hall false false]
    have hem : feedStep ⟨.outer,
        false || ms.any (fun kv => decide (kv.1 = "first_names")),
        false || ms.any (fun kv => decide (kv.1 = "last_names"))⟩
        (prefixOf [], JEvent.end_map)
      = ⟨.outer,
        false || ms.any (fun kv => decide (kv.1 = "first_names")),
        false || ms.any (fun kv => decide (kv.1 = "last_names"))⟩ := by
      simp [feedStep, prefixOf, String.intercalate]
    rw [hem]
    rw [and_iff_left hall]
    simp only [Bool.false_or, Bool.true_and, Bool.or_eq_true, List.any_eq_true,
      decide_eq_true_eq]
    constructor
    · rintro (⟨kv, hm, hk⟩ | ⟨kv, hm, hk⟩)
      · exact ⟨kv, hm, Or.inl hk⟩
      · exact ⟨kv, hm, Or.inr hk⟩
    · rintro ⟨kv, hm, hk | hk⟩
      · exact Or.inl ⟨kv, hm, hk⟩
      · exact Or.inr ⟨kv, hm, hk⟩
  · have hbad : ms.all (fun kv => kv.2.all (fun it => decide (strNumCount it = 2)))
        = false := by
      rw [← Bool.not_eq_true, List.all_eq_true]
      intro hcon
      apply hall
      intro kv hkv it hit
      have := hcon kv hkv
      rw [List.all_eq_true] at this
      simpa using this it hit
    constructor
    · intro hacc
      exfalso
      rw [validatorAccepts, runValidator, hev] at hacc
      simp only [List.foldl_cons, List.foldl_append, List.foldl_nil] at hacc
      rw [hsm] at hacc
      have hst := run_members_bad ms hsc hkeys hbad false false
      set s := (objEvents [] (ms.map fun kv => (kv.1, .arr (kv.2.map .arr)))).foldl
        feedStep ⟨.outer, false, false⟩ with hs
      rcases s with ⟨st, F', L'⟩
      simp only at hst
      subst hst
      simp [feedStep] at hacc
    · rintro ⟨_, hc⟩
      exact absurd hc hall

/-- Witness for the amended C6 theorem: the flat document
`{"first_names": [["A", 1]], "extra": [[2, true, 3]]}` satisfies the
hypotheses and is accepted - its unknown key and its `[2, true, 3]` item
(two numbers plus an ignored boolean) pass the actual check. -/
theorem validator_accepts_iff_flat_witness :
    (∀ kv ∈ [("first_names", [[Json.str "A", Json.num (.int 1)]]),
        ("extra", [[Json.num (.int 2), Json.bool true, Json.num (.int 3)]])],
      ∀ it ∈ kv.2, ∀ x ∈ it, isScalarJson x = true)
    ∧ (∀ kv ∈ [("first_names", [[Json.str "A", Json.num (.int 1)]]),
        ("extra", [[Json.num (.int 2), Json.bool true, Json.num (.int 3)]])],
      endsWithItem kv.1 = false)
    ∧ (validatorAccepts (docOf [("first_names", [[Json.str "A", Json.num (.int 1)]]),
        ("extra", [[Json.num (.int 2), Json.bool true, Json.num (.int 3)]])]) = true
      ↔ ((∃ kv ∈ [("first_names", [[Json.str "A", Json.num (.int 1)]]),
            ("extra", [[Json.num (.int 2), Json.bool true, Json.num (.int 3)]])],
          kv.1 = "first_names" ∨ kv.1 = "last_names")
        ∧ ∀ kv ∈ [("first_names", [[Json.str "A", Json.num (.int 1)]]),
            ("extra", [[Json.num (.int 2), Json.bool true, Json.num (.int 3)]])],
          ∀ it ∈ kv.2, strNumCount it = 2)) :=
  ⟨by decide, by decide,
    validator_accepts_iff_flat_shape _ (by decide) (by decide)⟩


lemma foldl_append_init (l : List String) :
    ∀ s : String, l.foldl (fun r c => r ++ c) s = s ++ l.foldl (fun r c => r ++ c) "" := by
  induction l with
  | nil => intro s; simp [String.append_empty]
  | cons c rest ih =>
    intro s
    simp only [List.foldl_cons]
    rw [ih (s ++ c), ih ("" ++ c)]
    rw [show ("" ++ c : String) = c from rfl, String.append_assoc]

lemma join_cons (c : String) (cs : List String) :
    String.join (c :: cs) = c ++ String.join cs := by
  show List.foldl (fun r s => r ++ s) ("" ++ c) cs = _
  rw [foldl_append_init cs ("" ++ c), show ("" ++ c : String) = c from rfl]
  rfl

lemma join_append (a b : List String) :
    String.join (a ++ b) = String.join a ++ String.join b := by
  induction a with
  | nil => simp [String.join]
  | cons c rest ih =>
    simp only [List.cons_append, join_cons, ih, String.append_assoc]

lemma join_chunkJoin (batchSize : Nat) (lines : List String) :
    String.join (chunkJoin batchSize lines) = String.join lines := by
  have hmap : ∀ groups : List (List String),
      String.join (groups.map String.join) = String.join groups.flatten := by
    intro groups
    induction groups with
    | nil => rfl
    | cons g rest ih =>
      simp only [List.map_cons, join_cons, List.flatten_cons, join_append, ih]
  rw [chunkJoin, hmap, splitChunks_flatten]
  rfl

lemma litm {a b c : String} (h : a ++ b = c) (r : String) : a ++ (b ++ r) = c ++ r := by
  rw [← String.append_assoc, h]

lemma emits_dumpsFull (p : FullName) : Emits (jsonOfFull p) (dumpsFull p) := by
  have h := Emits.objCons "" "" " " (jsonString p.first) ""
    ("," ++ " " ++ jsonString "last" ++ "" ++ ":" ++ " " ++ jsonString p.last ++ ""
      ++ ("," ++ " " ++ jsonString "id" ++ "" ++ ":" ++ " " ++ toString p.id ++ "" ++ ""))
    "first" (.str p.first)
    [("last", .str p.last), ("id", .num (.int p.id))]
    (by decide) (by decide) (by decide) (Emits.str p.first) (by decide)
    (EmitsMemTail.cons " " "" " " (jsonString p.last) ""
      ("," ++ " " ++ jsonString "id" ++ "" ++ ":" ++ " " ++ toString p.id ++ "" ++ "")
      "last" (.str p.last) [("id", .num (.int p.id))]
      (by decide) (by decide) (by decide) (Emits.str p.last) (by decide)
      (EmitsMemTail.cons " " "" " " (toString p.id) "" "" "id" (.num (.int p.id)) []
        (by decide) (by decide) (by decide) (Emits.int p.id) (by decide)
        EmitsMemTail.nil))
  have heq : ("\x7b" ++ "" ++ jsonString "first" ++ "" ++ ":" ++ " " ++ jsonString p.first
      ++ ""
      ++ ("," ++ " " ++ jsonString "last" ++ "" ++ ":" ++ " " ++ jsonString p.last ++ ""
        ++ ("," ++ " " ++ jsonString "id" ++ "" ++ ":" ++ " " ++ toString p.id ++ "" ++ ""))
      ++ "\x7d") = dumpsFull p := by
    rw [show jsonString "first" = "\"first\"" from by decide,
      show jsonString "last" = "\"last\"" from by decide,
      show jsonString "id" = "\"id\"" from by decide]
    simp only [String.append_empty, String.append_assoc, dumpsFull]
    simp only [litm (show (":" : String) ++ " " = ": " from by decide),
      litm (show ("\"first\"" : String) ++ ": " = "\"first\": " from by decide),
      litm (show ("\x7b" : String) ++ "\"first\": " = "\x7b\"first\": " from by decide),
      litm (show ("\"last\"" : String) ++ ": " = "\"last\": " from by decide),
      litm (show (" " : String) ++ "\"last\": " = " \"last\": " from by decide),
      litm (show ("," : String) ++ " \"last\": " = ", \"last\": " from by decide),
      litm (show ("\"id\"" : String) ++ ": " = "\"id\": " from by decide),
      litm (show (" " : String) ++ "\"id\": " = " \"id\": " from by decide),
      litm (show ("," : String) ++ " \"id\": " = ", \"id\": " from by decide)]
  rw [jsonOfFull]
  exact heq ▸ h


lemma emits_dumpsUnpaired (u : Unpaired) : Emits (jsonOfUnpaired u) (dumpsUnpaired u) := by
  cases u with
  | first n i =>
    have h := Emits.objCons "" "" " " (jsonString n) ""
      ("," ++ " " ++ jsonString "id" ++ "" ++ ":" ++ " " ++ toString i ++ "" ++ "")
      "first" (.str n) [("id", .num (.int i))]
      (by rfl) (by rfl) (by rfl) (Emits.str n) (by rfl)
      (EmitsMemTail.cons " " "" " " (toString i) "" "" "id" (.num (.int i)) []
        (by rfl) (by rfl) (by rfl) (Emits.int i) (by rfl) EmitsMemTail.nil)
    have heq : ("\x7b" ++ "" ++ jsonString "first" ++ "" ++ ":" ++ " " ++ jsonString n
        ++ ""
        ++ ("," ++ " " ++ jsonString "id" ++ "" ++ ":" ++ " " ++ toString i ++ "" ++ "")
        ++ "\x7d") = dumpsUnpaired (.first n i) := by
      rw [show jsonString "first" = "\"first\"" from by decide,
        show jsonString "id" = "\"id\"" from by decide]
      simp only [String.append_empty, String.append_assoc, dumpsUnpaired]
      simp only [litm (show (":" : String) ++ " " = ": " from by decide),
        litm (show ("\"first\"" : String) ++ ": " = "\"first\": " from by decide),
        litm (show ("\x7b" : String) ++ "\"first\": " = "\x7b\"first\": " from by decide),
        litm (show ("\"id\"" : String) ++ ": " = "\"id\": " from by decide),
        litm (show (" " : String) ++ "\"id\": " = " \"id\": " from by decide),
        litm (show ("," : String) ++ " \"id\": " = ", \"id\": " from by decide)]
    rw [jsonOfUnpaired]
    exact heq ▸ h
  | last n i =>
    have h := Emits.objCons "" "" " " (jsonString n) ""
      ("," ++ " " ++ jsonString "id" ++ "" ++ ":" ++ " " ++ toString i ++ "" ++ "")
      "last" (.str n) [("id", .num (.int i))]
      (by rfl) (by rfl) (by rfl) (Emits.str n) (by rfl)
      (EmitsMemTail.cons " " "" " " (toString i) "" "" "id" (.num (.int i)) []
        (by rfl) (by rfl) (by rfl) (Emits.int i) (by rfl) EmitsMemTail.nil)
    have heq : ("\x7b" ++ "" ++ jsonString "last" ++ "" ++ ":" ++ " " ++ jsonString n
        ++ ""
        ++ ("," ++ " " ++ jsonString "id" ++ "" ++ ":" ++ " " ++ toString i ++ "" ++ "")
        ++ "\x7d") = dumpsUnpaired (.last n i) := by
      rw [show jsonString "last" = "\"last\"" from by decide,
        show jsonString "id" = "\"id\"" from by decide]
      simp only [String.append_empty, String.append_assoc, dumpsUnpaired]
      simp only [litm (show (":" : String) ++ " " = ": " from by decide),
        litm (show ("\"last\"" : String) ++ ": " = "\"last\": " from by decide),
        litm (show ("\x7b" : String) ++ "\"last\": " = "\x7b\"last\": " from by decide),
        litm (show ("\"id\"" : String) ++ ": " = "\"id\": " from by decide),
        litm (show (" " : String) ++ "\"id\": " = " \"id\": " from by decide),
        litm (show ("," : String) ++ " \"id\": " = ", \"id\": " from by decide)]
    rw [jsonOfUnpaired]
    exact heq ▸ h

lemma paired_tail : ∀ rest : List FullName,
    ∃ w t, Ws w ∧ EmitsTail (rest.map jsonOfFull) t
      ∧ "\n" ++ String.join (pairedLines false rest) ++ "  " = w ++ t := by
  intro rest
  induction rest with
  | nil =>
    refine ⟨"\n  ", "", by rfl, EmitsTail.nil, ?_⟩
    rw [pairedLines, show String.join [] = "" from rfl, String.append_empty,
      String.append_empty]
    decide
  | cons p rest ih =>
    obtain ⟨w', t', hw', ht', heq'⟩ := ih
    refine ⟨"\n    ", "," ++ "" ++ dumpsFull p ++ w' ++ t', by rfl,
      EmitsTail.cons "" (dumpsFull p) w' t' (jsonOfFull p) (rest.map jsonOfFull)
        (by rfl) (emits_dumpsFull p) hw' ht', ?_⟩
    rw [pairedLines, if_neg (by simp), join_cons]
    simp only [String.append_empty, String.append_assoc]
    rw [← heq']
    simp only [String.append_assoc,
      litm (show ("\n" : String) ++ "    ," = "\n    ," from by decide),
      litm (show ("\n    " : String) ++ "," = "\n    ," from by decide)]

lemma emits_paired_array (ps : List FullName) :
    Emits (.arr (ps.map jsonOfFull))
      ("[\n" ++ String.join (pairedLines true ps) ++ "  ]") := by
  cases ps with
  | nil =>
    rw [show ("[\n" ++ String.join (pairedLines true []) ++ "  ]") = "[" ++ "\n  " ++ "]"
      from by rw [pairedLines]; decide]
    exact Emits.arrNil "\n  " (by rfl)
  | cons p rest =>
    obtain ⟨w, t, hw, ht, heq⟩ := paired_tail rest
    have h := Emits.arrCons "\n    " (dumpsFull p) w t (jsonOfFull p)
      (rest.map jsonOfFull) (by rfl) (emits_dumpsFull p) hw ht
    rw [List.map_cons]
    have heqX : ∀ X, "\n" ++ (String.join (pairedLines false rest) ++ ("  " ++ X))
        = w ++ (t ++ X) := by
      intro X
      have h2 := congrArg (fun s => s ++ X) heq
      simpa [String.append_assoc] using h2
    have heq2 : ("[" ++ "\n    " ++ dumpsFull p ++ w ++ t ++ "]")
        = ("[\n" ++ String.join (pairedLines true (p :: rest)) ++ "  ]") := by
      rw [pairedLines, if_pos rfl, join_cons,
        show ("  ]" : String) = "  " ++ "]" from by decide]
      simp only [String.append_assoc]
      rw [heqX "]"]
      simp only [litm (show ("[" : String) ++ "\n    " = "[\n    " from by decide),
        litm (show ("[\n" : String) ++ "    " = "[\n    " from by decide)]
    exact heq2 ▸ h

lemma unpaired_tail : ∀ rest : List Unpaired,
    ∃ w t, Ws w ∧ EmitsTail (rest.map jsonOfUnpaired) t
      ∧ "\n" ++ String.join (unpairedLines false rest) ++ "  " = w ++ t := by
  intro rest
  induction rest with
  | nil =>
    refine ⟨"\n  ", "", by rfl, EmitsTail.nil, ?_⟩
    rw [unpairedLines, show String.join [] = "" from rfl, String.append_empty,
      String.append_empty]
    decide
  | cons u rest ih =>
    obtain ⟨w', t', hw', ht', heq'⟩ := ih
    refine ⟨"\n    ", "," ++ "" ++ dumpsUnpaired u ++ w' ++ t', by rfl,
      EmitsTail.cons "" (dumpsUnpaired u) w' t' (jsonOfUnpaired u) (rest.map jsonOfUnpaired)
        (by rfl) (emits_dumpsUnpaired u) hw' ht', ?_⟩
    rw [unpairedLines, if_neg (by simp), join_cons]
    simp only [String.append_empty, String.append_assoc]
    rw [← heq']
    simp only [String.append_assoc,
      litm (show ("\n" : String) ++ "    ," = "\n    ," from by decide),
      litm (show ("\n    " : String) ++ "," = "\n    ," from by decide)]

lemma emits_unpaired_array (us : List Unpaired) :
    Emits (.arr (us.map jsonOfUnpaired))
      ("[\n" ++ String.join (unpairedLines true us) ++ "  ]") := by
  cases us with
  | nil =>
    rw [show ("[\n" ++ String.join (unpairedLines true []) ++ "  ]") = "[" ++ "\n  " ++ "]"
      from by rw [unpairedLines]; decide]
    exact Emits.arrNil "\n  " (by rfl)
  | cons u rest =>
    obtain ⟨w, t, hw, ht, heq⟩ := unpaired_tail rest
    have h := Emits.arrCons "\n    " (dumpsUnpaired u) w t (jsonOfUnpaired u)
      (rest.map jsonOfUnpaired) (by rfl) (emits_dumpsUnpaired u) hw ht
    rw [List.map_cons]
    have heqX : ∀ X, "\n" ++ (String.join (unpairedLines false rest) ++ ("  " ++ X))
        = w ++ (t ++ X) := by
      intro X
      have h2 := congrArg (fun s => s ++ X) heq
      simpa [String.append_assoc] using h2
    have heq2 : ("[" ++ "\n    " ++ dumpsUnpaired u ++ w ++ t ++ "]")
        = ("[\n" ++ String.join (unpairedLines true (u :: rest)) ++ "  ]") := by
      rw [unpairedLines, if_pos rfl, join_cons,
        show ("  ]" : String) = "  " ++ "]" from by decide]
      simp only [String.append_assoc]
      rw [heqX "]"]
      simp only [litm (show ("[" : String) ++ "\n    " = "[\n    " from by decide),
        litm (show ("[\n" : String) ++ "    " = "[\n    " from by decide)]
    exact heq2 ▸ h


lemma emits_envelope (ps : List FullName) (us : List Unpaired) :
    Emits (.obj [("full_names", .arr (ps.map jsonOfFull)),
        ("unpaired", .arr (us.map jsonOfUnpaired))])
      ("\x7b\n  \"full_names\": [\n" ++ String.join (pairedLines true ps)
        ++ "  ],\n  \"unpaired\": [\n" ++ String.join (unpairedLines true us)
        ++ "  ]\n\x7d") := by
  have h := Emits.objCons "\n  " "" " "
    ("[\n" ++ String.join (pairedLines true ps) ++ "  ]") ""
    ("," ++ "\n  " ++ jsonString "unpaired" ++ "" ++ ":" ++ " "
      ++ ("[\n" ++ String.join (unpairedLines true us) ++ "  ]") ++ "\n" ++ "")
    "full_names" (.arr (ps.map jsonOfFull))
    [("unpaired", .arr (us.map jsonOfUnpaired))]
    (by rfl) (by rfl) (by rfl) (emits_paired_array ps) (by rfl)
    (EmitsMemTail.cons "\n  " "" " "
      ("[\n" ++ String.join (unpairedLines true us) ++ "  ]") "\n" ""
      "unpaired" (.arr (us.map jsonOfUnpaired)) []
      (by rfl) (by rfl) (by rfl) (emits_unpaired_array us) (by rfl)
      EmitsMemTail.nil)
  have heq : ("\x7b" ++ "\n  " ++ jsonString "full_names" ++ "" ++ ":" ++ " "
      ++ ("[\n" ++ String.join (pairedLines true ps) ++ "  ]") ++ ""
      ++ ("," ++ "\n  " ++ jsonString "unpaired" ++ "" ++ ":" ++ " "
        ++ ("[\n" ++ String.join (unpairedLines true us) ++ "  ]") ++ "\n" ++ "")
      ++ "\x7d")
      = ("\x7b\n  \"full_names\": [\n" ++ String.join (pairedLines true ps)
        ++ "  ],\n  \"unpaired\": [\n" ++ String.join (unpairedLines true us)
        ++ "  ]\n\x7d") := by
    rw [show jsonString "full_names" = "\"full_names\"" from by decide,
      show jsonString "unpaired" = "\"unpaired\"" from by decide]
    simp only [String.append_empty, String.append_assoc]
    rw [litm (show (":" : String) ++ " " = ": " from by decide),
      litm (show ("\"full_names\"" : String) ++ ": " = "\"full_names\": " from by decide),
      litm (show ("\"full_names\": " : String) ++ "[\n" = "\"full_names\": [\n"
        from by decide),
      litm (show ("\n  " : String) ++ "\"full_names\": [\n" = "\n  \"full_names\": [\n"
        from by decide),
      litm (show ("\x7b" : String) ++ "\n  \"full_names\": [\n"
        = "\x7b\n  \"full_names\": [\n" from by decide),
      litm (show (":" : String) ++ " " = ": " from by decide),
      litm (show ("\"unpaired\"" : String) ++ ": " = "\"unpaired\": " from by decide),
      litm (show ("\"unpaired\": " : String) ++ "[\n" = "\"unpaired\": [\n"
        from by decide),
      litm (show ("  ]" : String) ++ "," = "  ]," from by decide),
      litm (show ("  ]," : String) ++ "\n  " = "  ],\n  " from by decide),
      litm (show ("  ],\n  " : String) ++ "\"unpaired\": [\n"
        = "  ],\n  \"unpaired\": [\n" from by decide),
      show ("\n" : String) ++ "\x7d" = "\n\x7d" from by decide,
      show ("  ]" : String) ++ "\n\x7d" = "  ]\n\x7d" from by decide]
  exact heq ▸ h

/-- C2 amended: the byte stream of `convert_to_ndjson_stream` is not a
single JSON object (see the counterexample theorem), but it contains an
envelope section - a contiguous run of yielded chunks - whose bytes are
a single valid JSON object of the output grammar
(`full_names` array of paired records, `unpaired` array of unpaired
records) followed by a newline, with the NDJSON echo and the comment
lines lying outside that section. -/
theorem envelope_section_is_single_json_object (batchSize : Nat) (outputDir : String)
    (firstNames lastNames : List NameRecord) :
    ∃ pre env post : List String,
      convertStream batchSize outputDir firstNames lastNames = pre ++ env ++ post
        ∧ SingleJsonObjectDoc (String.join env)
        ∧ ∃ t : String,
            Emits (.obj [("full_names", .arr ((merge_full_names
                  (external_sort_ndjson batchSize firstNames)
                  (external_sort_ndjson batchSize lastNames)).map jsonOfFull)),
                ("unpaired", .arr ((merge_unpaired
                  (external_sort_ndjson batchSize firstNames)
                  (external_sort_ndjson batchSize lastNames)).map jsonOfUnpaired))]) t
              ∧ String.join env = t ++ "\n" := by
  set sf := external_sort_ndjson batchSize firstNames with hsf
  set sl := external_sort_ndjson batchSize lastNames with hsl
  set ps := merge_full_names sf sl with hps
  set us := merge_unpaired sf sl with hus
  refine ⟨chunkJoin batchSize (firstNames.map ndjsonLine)
      ++ chunkJoin batchSize (lastNames.map ndjsonLine)
      ++ ["# Sorting first_names...\n", "# Sorting last_names...\n"],
    ["\x7b\n  \"full_names\": [\n"] ++ chunkJoin batchSize (pairedLines true ps)
      ++ ["  ],\n  \"unpaired\": [\n"] ++ chunkJoin batchSize (unpairedLines true us)
      ++ ["  ]\n\x7d\n"],
    ["# Pipeline finished. Results in " ++ outputDir ++ "\n"], ?_, ?_, ?_⟩
  case _ =>
    simp only [convertStream, ← hsf, ← hsl, ← hps, ← hus, List.append_assoc,
      List.singleton_append, List.cons_append, List.nil_append]
  case _ =>
    have h2 : String.join (["\x7b\n  \"full_names\": [\n"]
        ++ chunkJoin batchSize (pairedLines true ps)
        ++ ["  ],\n  \"unpaired\": [\n"]
        ++ chunkJoin batchSize (unpairedLines true us)
        ++ ["  ]\n\x7d\n"])
        = ("\x7b\n  \"full_names\": [\n" ++ String.join (pairedLines true ps)
          ++ "  ],\n  \"unpaired\": [\n" ++ String.join (unpairedLines true us)
          ++ "  ]\n\x7d") ++ "\n" := by
      simp only [join_append, join_cons, join_chunkJoin,
        show String.join ([] : List String) = "" from rfl,
        String.append_empty, String.append_assoc,
        show ("  ]\n\x7d" : String) ++ "\n" = "  ]\n\x7d\n" from by decide]
    exact ⟨[("full_names", .arr (ps.map jsonOfFull)),
        ("unpaired", .arr (us.map jsonOfUnpaired))], _, "", "\n",
      by rfl, by rfl, emits_envelope ps us, h2⟩
  case _ =>
    have h2 : String.join (["\x7b\n  \"full_names\": [\n"]
        ++ chunkJoin batchSize (pairedLines true ps)
        ++ ["  ],\n  \"unpaired\": [\n"]
        ++ chunkJoin batchSize (unpairedLines true us)
        ++ ["  ]\n\x7d\n"])
        = ("\x7b\n  \"full_names\": [\n" ++ String.join (pairedLines true ps)
          ++ "  ],\n  \"unpaired\": [\n" ++ String.join (unpairedLines true us)
          ++ "  ]\n\x7d") ++ "\n" := by
      simp only [join_append, join_cons, join_chunkJoin,
        show String.join ([] : List String) = "" from rfl,
        String.append_empty, String.append_assoc,
        show ("  ]\n\x7d" : String) ++ "\n" = "  ]\n\x7d\n" from by decide]
    exact ⟨_, emits_envelope ps us, h2⟩

/-- C10: `sync_gen_to_async_gen` yields exactly the longest prefix of
the underlying generator items that contains no `None`, in order: if a
`None` item occurs before exhaustion the stream ends there and all later
items are dropped, otherwise all items are delivered. -/
theorem sync_gen_yields_longest_none_free_prefix {α : Type} (items : List (Option α)) :
    sync_gen_to_async_gen items
      = (items.takeWhile (fun o => o.isSome)).reduceOption := by
  induction items with
  | nil => rfl
  | cons o rest ih =>
    cases o with
    | none => rfl
    | some a =>
      simp only [sync_gen_to_async_gen, List.takeWhile_cons, Option.isSome_some,
        List.reduceOption_cons_of_some, ih]
      simp

/-- C9 is a code bug: the validator buffer after any sequence of `feed`
calls is the concatenation of every byte fed so far, so its size is the
total size of the document received - it is not a bounded rolling
buffer and it does materialise the full document. -/
theorem validator_buffer_materialises_input (chunks : List String) :
    bufferAfterFeeds chunks = String.join chunks
      ∧ (bufferAfterFeeds chunks).length = (chunks.map String.length).sum := by
  constructor
  · rfl
  · suffices h : ∀ (itail : List String) (init : String),
        (List.foldl feedBuffer init itail).length
          = init.length + (itail.map String.length).sum by
      simpa using h chunks ""
    intro itail
    induction itail with
    | nil => intro init; simp
    | cons c rest ih =>
      intro init
      simp only [List.foldl_cons, feedBuffer, ih, String.length_append, List.map_cons,
        List.sum_cons]
      omega

end RLProc
